import Mathlib

/-!
Verification development for the StreetSage review platform
(cascading place search, review submission/moderation API).

JavaScript strings are modelled as `List Char`; JS numbers that can carry
fractional values (review ratings) are modelled as `Option Rat`, with `none`
standing for `NaN`.  Each definition below is a direct translation of the
TypeScript function named in its doc comment.
-/

set_option maxRecDepth 40000

namespace StreetSage

/-- JS strings modelled as lists of characters. -/
abbrev Str := List Char

/-- Characters matched by the JS `\s` class (the ones relevant to this data:
ASCII whitespace plus NBSP). -/
def isSpace (c : Char) : Bool :=
  c = ' ' || c = '\t' || c = '\n' || c = '\r' || c = '\x0b' || c = '\x0c' || c = ' '

/-- `String.prototype.trim`: drop whitespace from both ends. -/
def trimStr (s : Str) : Str :=
  ((s.dropWhile isSpace).reverse.dropWhile isSpace).reverse

/-- The effect of `normalize("NFD").replace(/\p{Diacritic}/gu, "")` on one
character, for the Latin repertoire this site's place names use: a precomposed
accented letter decomposes to its base letter plus a combining mark, and
removing the mark leaves the base letter.  Characters outside the table are
unchanged (NFD is the identity on ASCII). -/
def deaccent (c : Char) : Char :=
  match c with
  | 'á' => 'a' | 'é' => 'e' | 'í' => 'i' | 'ó' => 'o' | 'ú' => 'u'
  | 'à' => 'a' | 'è' => 'e' | 'ì' => 'i' | 'ò' => 'o' | 'ù' => 'u'
  | 'ä' => 'a' | 'ë' => 'e' | 'ï' => 'i' | 'ö' => 'o' | 'ü' => 'u'
  | 'â' => 'a' | 'ê' => 'e' | 'î' => 'i' | 'ô' => 'o' | 'û' => 'u'
  | 'ã' => 'a' | 'õ' => 'o' | 'ñ' => 'n' | 'ç' => 'c'
  | 'Á' => 'A' | 'É' => 'E' | 'Í' => 'I' | 'Ó' => 'O' | 'Ú' => 'U'
  | 'À' => 'A' | 'È' => 'E' | 'Ì' => 'I' | 'Ò' => 'O' | 'Ù' => 'U'
  | 'Ä' => 'A' | 'Ë' => 'E' | 'Ï' => 'I' | 'Ö' => 'O' | 'Ü' => 'U'
  | 'Â' => 'A' | 'Ê' => 'E' | 'Î' => 'I' | 'Ô' => 'O' | 'Û' => 'U'
  | 'Ã' => 'A' | 'Õ' => 'O' | 'Ñ' => 'N' | 'Ç' => 'C'
  | _ => c

/-- `CascadingSearch.tsx` `norm`:
`s.normalize("NFD").replace(/\p{Diacritic}/gu, "").toLowerCase()`. -/
def norm (s : Str) : Str :=
  s.map (fun c => (deaccent c).toLower)

/-- One row-extension step of the Levenshtein dynamic program in
`CascadingSearch.tsx` `levenshtein`: given the tail of the previous row
(`p0 :: p1 :: ps`, aligned so `p0 = dp[i-1][j-1]`), the remaining characters of
`b`, and the cell to the left (`left = dp[i][j-1]`), produce the rest of the
current row.  `dp[i][j] = min(dp[i-1][j] + 1, dp[i][j-1] + 1, dp[i-1][j-1] + cost)`. -/
def levRow (ca : Char) : Str → List Nat → Nat → List Nat
  | cb :: bs, p0 :: p1 :: ps, left =>
      let cost := if ca = cb then 0 else 1
      let c := Nat.min (Nat.min (p1 + 1) (left + 1)) (p0 + cost)
      c :: levRow ca bs (p1 :: ps) c
  | _, _, _ => []

/-- `CascadingSearch.tsx` `levenshtein(a, b)`: the full edit-distance table,
row by row; row 0 is `0..n` and row `i` starts with `i`. -/
def levenshtein (a b : Str) : Nat :=
  let row0 := List.range (b.length + 1)
  let last := (a.foldl (fun st ca =>
      let i := st.2 + 1
      (i :: levRow ca b st.1 i, i)) (row0, 0)).1
  last.getLastD 0

theorem isPrefixOf_iff {l1 l2 : Str} : l1.isPrefixOf l2 = true ↔ l1 <+: l2 :=
  List.isPrefixOf_iff_prefix

/-- Helper for `String.prototype.indexOf`: the first position (counting from
`k`) at which `q` occurs in `hay`, if any. -/
def indexOfAux (q : Str) : Str → Nat → Option Nat
  | hay, k =>
    if q.isPrefixOf hay then some k
    else match hay with
      | [] => none
      | _ :: t => indexOfAux q t (k + 1)

/-- JS `n.indexOf(q)`: index of the first occurrence of `q` in `n`, `-1` when
absent. -/
def indexOf (n q : Str) : Int :=
  match indexOfAux q n 0 with
  | some k => (k : Int)
  | none => -1

theorem indexOfAux_isSome_iff (q : Str) :
    ∀ (hay : Str) (k : Nat), (indexOfAux q hay k).isSome ↔ q <:+: hay := by
  intro hay
  induction hay with
  | nil =>
    intro k
    rw [indexOfAux]
    by_cases h : q.isPrefixOf []
    · simp [h]
      exact List.prefix_nil.mp (isPrefixOf_iff.mp h)
    · simp [h]
      intro hq
      subst hq
      simp [List.isPrefixOf] at h
  | cons a t ih =>
    intro k
    rw [indexOfAux]
    by_cases h : q.isPrefixOf (a :: t)
    · simp [h]
      exact (isPrefixOf_iff.mp h).isInfix
    · simp [h, ih (k + 1)]
      constructor
      · exact fun hi => List.infix_cons_iff.mpr (Or.inr hi)
      · intro hi
        rcases List.infix_cons_iff.mp hi with hp | hi'
        · exact absurd (isPrefixOf_iff.mpr hp) (by simpa using h)
        · exact hi'

/-- `n.indexOf(q) >= 0` exactly when `q` occurs inside `n`. -/
theorem indexOf_nonneg_iff (n q : Str) : 0 ≤ indexOf n q ↔ q <:+: n := by
  rw [indexOf]
  rcases h : indexOfAux q n 0 with _ | k
  · have := (indexOfAux_isSome_iff q n 0)
    rw [h] at this
    simp at this
    simp [this]
  · have := (indexOfAux_isSome_iff q n 0)
    rw [h] at this
    simp at this
    simp [this]

theorem indexOfAux_ge (q : Str) :
    ∀ (hay : Str) (k j : Nat), indexOfAux q hay k = some j → k ≤ j := by
  intro hay
  induction hay with
  | nil =>
    intro k j h
    rw [indexOfAux] at h
    by_cases hp : q.isPrefixOf []
    · simp [hp] at h; omega
    · simp [hp] at h
  | cons a t ih =>
    intro k j h
    rw [indexOfAux] at h
    by_cases hp : q.isPrefixOf (a :: t)
    · simp [hp] at h; omega
    · simp [hp] at h
      have := ih (k + 1) j h
      omega

/-- `n.indexOf(q) === 0` exactly when `q` is a prefix of `n`. -/
theorem indexOf_eq_zero_iff (n q : Str) : indexOf n q = 0 ↔ q <+: n := by
  rw [indexOf]
  rcases h : indexOfAux q n 0 with _ | k
  · simp
    intro hp
    have := (indexOfAux_isSome_iff q n 0)
    rw [h] at this
    simp at this
    exact this hp.isInfix
  · cases n with
    | nil =>
      rw [indexOfAux] at h
      by_cases hp : q.isPrefixOf ([] : Str)
      · simp [hp] at h
        simp [← h]
        exact List.prefix_nil.mp (isPrefixOf_iff.mp hp)
      · simp [hp] at h
    | cons a t =>
      rw [indexOfAux] at h
      by_cases hp : q.isPrefixOf (a :: t)
      · simp [hp] at h
        simp [← h]
        exact isPrefixOf_iff.mp hp
      · simp [hp] at h
        have hk := indexOfAux_ge q t 1 k h
        show (k : Int) = 0 ↔ q <+: a :: t
        constructor
        · intro hc
          exfalso
          have hz : k = 0 := by exact_mod_cast hc
          omega
        · intro hc
          exact absurd (isPrefixOf_iff.mpr hc) (by simpa using hp)

/-! ### The comparator used by the typeahead's sorts

`a.localeCompare(b)` is modelled as plain lexicographic comparison of the
character sequences (the option strings here are ASCII place names, for which
the default collation agrees with code-unit order). -/

/-- Three-way lexicographic comparison, the model of `a.localeCompare(b)`. -/
def lexCmp : Str → Str → Int
  | [], [] => 0
  | [], _ :: _ => -1
  | _ :: _, [] => 1
  | a :: as, b :: bs => if a < b then -1 else if b < a then 1 else lexCmp as bs

theorem lexCmp_antisymm : ∀ (a b : Str), lexCmp a b = -lexCmp b a := by
  intro a
  induction a with
  | nil => intro b; cases b <;> simp [lexCmp]
  | cons x xs ih =>
    intro b
    cases b with
    | nil => simp [lexCmp]
    | cons y ys =>
      simp only [lexCmp]
      rcases lt_trichotomy x y with h | h | h
      · simp [h, not_lt.mpr h.le, ne_of_gt h]
      · simp [h, lt_irrefl, ih ys]
      · simp [h, not_lt.mpr h.le, ne_of_gt h]

theorem lexCmp_self (a : Str) : lexCmp a a = 0 := by
  induction a with
  | nil => rfl
  | cons x xs ih => simp [lexCmp, ih]

theorem lexCmp_trans_nonpos :
    ∀ (a b c : Str), lexCmp a b ≤ 0 → lexCmp b c ≤ 0 → lexCmp a c ≤ 0 := by
  intro a
  induction a with
  | nil => intro b c _ _; cases c <;> simp [lexCmp]
  | cons x xs ih =>
    intro b c hab hbc
    cases b with
    | nil => simp [lexCmp] at hab
    | cons y ys =>
      cases c with
      | nil => simp [lexCmp] at hbc
      | cons z zs =>
        simp only [lexCmp] at hab hbc ⊢
        rcases lt_trichotomy x y with hxy | hxy | hxy
        · rcases lt_trichotomy y z with hyz | hyz | hyz
          · simp [lt_trans hxy hyz]
          · subst hyz; simp [hxy]
          · simp [hxy, not_lt.mpr hxy.le] at hab
            rcases lt_trichotomy x z with hxz | hxz | hxz
            · simp [hxz]
            · subst hxz; simp [hyz, not_lt.mpr hyz.le] at hbc
            · simp [hyz, not_lt.mpr hyz.le] at hbc
        · subst hxy
          rcases lt_trichotomy x z with hxz | hxz | hxz
          · simp [hxz]
          · subst hxz
            simp [lt_irrefl] at hab hbc ⊢
            exact ih ys zs hab hbc
          · simp [hxz, not_lt.mpr hxz.le] at hbc
        · simp [hxy, not_lt.mpr hxy.le] at hab

/-- One scored candidate of `rankedAlphabeticalFilter`:
`{ item, rank, score, lev }`.  `lev` is `none` when `fuzzy` is off
(JS `Infinity`), in which case the entry can only survive the filter through
`rank < 2`. -/
structure RankedEntry where
  item : Str
  rank : Nat
  score : Nat
  lev : Option Nat
deriving DecidableEq, Repr

/-- `Math.ceil(q.length * 0.5)`. -/
def fuzzyThreshold (q : Str) : Nat := (q.length + 1) / 2

/-- The body of `list.map(...)` in `rankedAlphabeticalFilter`: normalize the
item, locate the normalized query inside it, mark prefix/contains, and (when
`fuzzy`) compute the Levenshtein distance between the query truncated to 32
characters and the normalized item truncated to 64 characters. -/
def rankEntry (q : Str) (fuzzy : Bool) (item : Str) : RankedEntry :=
  let n := norm item
  let i := indexOf n q
  let prefix_ := i = 0
  let contains := 0 < i
  let lev : Option Nat :=
    if fuzzy then some (levenshtein (q.take 32) (n.take 64)) else none
  let rank : Nat := if prefix_ then 0 else if contains then 1 else 2
  let score : Nat :=
    if prefix_ then i.toNat else if contains then i.toNat else lev.getD 0
  ⟨item, rank, score, lev⟩

/-- The filter predicate `x.rank < 2 || x.lev <= Math.ceil(q.length * 0.5)`
(`lev` may be `Infinity`, i.e. `none`, which fails the comparison). -/
def keepEntry (q : Str) (x : RankedEntry) : Bool :=
  x.rank < 2 || (match x.lev with | some v => v ≤ fuzzyThreshold q | none => false)

/-- The comparator `a.rank - b.rank || a.score - b.score ||
a.item.localeCompare(b.item)`. -/
def cmpEntry (a b : RankedEntry) : Int :=
  let r : Int := (a.rank : Int) - (b.rank : Int)
  if r ≠ 0 then r
  else
    let s : Int := (a.score : Int) - (b.score : Int)
    if s ≠ 0 then s else lexCmp a.item b.item

/-- The non-strict order induced by `cmpEntry`, used to model
`Array.prototype.sort`. -/
def entryLe (a b : RankedEntry) : Prop := cmpEntry a b ≤ 0

instance : DecidableRel entryLe := fun a b => inferInstanceAs (Decidable (_ ≤ _))

theorem cmpEntry_antisymm (a b : RankedEntry) : cmpEntry a b = -cmpEntry b a := by
  unfold cmpEntry
  rcases Nat.lt_trichotomy a.rank b.rank with h | h | h
  · have h1 : (a.rank : Int) - b.rank ≠ 0 := by omega
    have h2 : (b.rank : Int) - a.rank ≠ 0 := by omega
    simp only [h1, h2, if_true, ne_eq, not_false_eq_true, ite_true]
    omega
  · have h1 : (a.rank : Int) - b.rank = 0 := by omega
    have h2 : (b.rank : Int) - a.rank = 0 := by omega
    simp only [h1, h2, ne_eq, not_true_eq_false, ite_false]
    rcases Nat.lt_trichotomy a.score b.score with hs | hs | hs
    · have s1 : (a.score : Int) - b.score ≠ 0 := by omega
      have s2 : (b.score : Int) - a.score ≠ 0 := by omega
      simp only [s1, s2, not_false_eq_true, ite_true]
      omega
    · have s1 : (a.score : Int) - b.score = 0 := by omega
      have s2 : (b.score : Int) - a.score = 0 := by omega
      simp only [s1, s2, not_true_eq_false, ite_false]
      exact lexCmp_antisymm a.item b.item
    · have s1 : (a.score : Int) - b.score ≠ 0 := by omega
      have s2 : (b.score : Int) - a.score ≠ 0 := by omega
      simp only [s1, s2, not_false_eq_true, ite_true]
      omega
  · have h1 : (a.rank : Int) - b.rank ≠ 0 := by omega
    have h2 : (b.rank : Int) - a.rank ≠ 0 := by omega
    simp only [h1, h2, if_true, ne_eq, not_false_eq_true, ite_true]
    omega

instance : IsTotal RankedEntry entryLe where
  total a b := by
    unfold entryLe
    rcases le_or_lt (cmpEntry a b) 0 with h | h
    · exact Or.inl h
    · right
      rw [cmpEntry_antisymm b a]
      omega

theorem cmpEntry_le_zero_iff (a b : RankedEntry) :
    cmpEntry a b ≤ 0 ↔
      a.rank < b.rank ∨
        (a.rank = b.rank ∧
          (a.score < b.score ∨ (a.score = b.score ∧ lexCmp a.item b.item ≤ 0))) := by
  dsimp only [cmpEntry]
  split_ifs with h1 h2
  · omega
  · omega
  · constructor
    · intro h
      exact Or.inr ⟨by omega, Or.inr ⟨by omega, h⟩⟩
    · rintro (h | ⟨_, h | ⟨_, h⟩⟩)
      · omega
      · omega
      · exact h

instance : IsTrans RankedEntry entryLe where
  trans a b c hab hbc := by
    unfold entryLe at *
    rw [cmpEntry_le_zero_iff] at hab hbc ⊢
    rcases hab with h1 | ⟨e1, h1⟩
    · rcases hbc with h2 | ⟨e2, _⟩
      · exact Or.inl (h1.trans h2)
      · exact Or.inl (e2 ▸ h1)
    · rcases hbc with h2 | ⟨e2, h2⟩
      · exact Or.inl (e1 ▸ h2)
      · refine Or.inr ⟨e1.trans e2, ?_⟩
        rcases h1 with s1 | ⟨f1, l1⟩
        · rcases h2 with s2 | ⟨f2, _⟩
          · exact Or.inl (s1.trans s2)
          · exact Or.inl (f2 ▸ s1)
        · rcases h2 with s2 | ⟨f2, l2⟩
          · exact Or.inl (f1 ▸ s2)
          · exact Or.inr ⟨f1.trans f2, lexCmp_trans_nonpos _ _ _ l1 l2⟩

/-- `rankedAlphabeticalFilter(list, query, fuzzy)` from `CascadingSearch.tsx`:
empty query returns the alphabetically sorted list; otherwise candidates are
scored with `rankEntry`, filtered with `keepEntry`, sorted with `cmpEntry` and
mapped back to the item.  The JS stable sort is modelled by insertion sort;
entries tied under `cmpEntry` have equal items, so every correct sort yields
the same list. -/
def rankedAlphabeticalFilter (list : List Str) (query : Str) (fuzzy : Bool := true) :
    List Str :=
  if query = [] then List.insertionSort (fun a b => lexCmp a b ≤ 0) list
  else
    let q := norm query
    let base := list.map (rankEntry q fuzzy)
    let filtered := base.filter (keepEntry q)
    (List.insertionSort entryLe filtered).map (·.item)

/-! ### Slugs and the navigation target -/

/-- A character kept by `slugify`'s `.replace(/[^a-z0-9\s-]/g, "")`: lowercase
ASCII letter, digit, whitespace, or hyphen. -/
def slugKeep (c : Char) : Bool :=
  (('a' ≤ c && c ≤ 'z') || ('0' ≤ c && c ≤ '9')) || isSpace c || c = '-'

/-- `.replace(/\s+/g, "-")`: each maximal whitespace run becomes one hyphen.
The boolean records whether the previous character was part of a run. -/
def collapseWsAux : Str → Bool → Str
  | [], _ => []
  | c :: t, prevSpace =>
    if isSpace c then
      if prevSpace then collapseWsAux t true else '-' :: collapseWsAux t true
    else c :: collapseWsAux t false

def collapseWs (s : Str) : Str := collapseWsAux s false

/-- `CascadingSearch.tsx` `slugify`:
`normalize("NFD").replace(/\p{Diacritic}/gu, "").toLowerCase()
 .replace(/[^a-z0-9\s-]/g, "").trim().replace(/\s+/g, "-")`. -/
def slugify (s : Str) : Str :=
  collapseWs (trimStr ((s.map (fun c => (deaccent c).toLower)).filter slugKeep))

/-- `goToEstate` from `CascadingSearch.tsx`: with any of the three levels
unset it does nothing; otherwise it emits
`/${slugify(county)}/${slugify(town)}/${slugify(estate)}`. -/
def goToEstate (county town estate : Str) : Option Str :=
  if county = [] || town = [] || estate = [] then none
  else some ('/' :: slugify county ++ '/' :: slugify town ++ '/' :: slugify estate)

theorem length_dropWhile_le (p : Char → Bool) (l : Str) :
    (l.dropWhile p).length ≤ l.length := by
  induction l with
  | nil => simp
  | cons a t ih =>
    by_cases h : p a
    · rw [List.dropWhile_cons_of_pos h]
      simpa using Nat.le_succ_of_le ih
    · rw [List.dropWhile_cons_of_neg h]

theorem dropWhile_head_false (p : Char → Bool) (l : Str) (c : Char) (t : Str)
    (h : l.dropWhile p = c :: t) : p c = false := by
  induction l with
  | nil => simp at h
  | cons a m ih =>
    by_cases ha : p a
    · rw [List.dropWhile_cons_of_pos ha] at h
      exact ih h
    · rw [List.dropWhile_cons_of_neg ha] at h
      cases h
      simpa using ha

/-- Whitespace-delimited words of a string (empty words dropped) — used only
to restate what `slugify` computes, not taken from the source. -/
def wordsBy (s : Str) : List Str :=
  match h : s.dropWhile isSpace with
  | [] => []
  | c :: t =>
      ((c :: t).takeWhile (fun x => !isSpace x)) ::
        wordsBy ((c :: t).dropWhile (fun x => !isSpace x))
  termination_by s.length
  decreasing_by
    have h1 : (s.dropWhile isSpace).length ≤ s.length := length_dropWhile_le isSpace s
    rw [h] at h1
    have hc : isSpace c = false := dropWhile_head_false isSpace s c t h
    have h2 : (c :: t).dropWhile (fun x => !isSpace x) = t.dropWhile (fun x => !isSpace x) := by
      apply List.dropWhile_cons_of_pos
      simp [hc]
    rw [h2]
    have h3 := length_dropWhile_le (fun x => !isSpace x) t
    simp only [List.length_cons] at h1
    omega

/-- Join words with single hyphens (spec-side helper for restating `slugify`). -/
def joinHyphen : List Str → Str
  | [] => []
  | [w] => w
  | w :: ws => w ++ '-' :: joinHyphen ws

/-- Right trim only (helper: `trimStr s = trimR (s.dropWhile isSpace)`). -/
def trimR (s : Str) : Str := (s.reverse.dropWhile isSpace).reverse

theorem trimStr_eq_trimR (s : Str) : trimStr s = trimR (s.dropWhile isSpace) := rfl

theorem dropWhile_eq_self_of_all_neg (p : Char → Bool) (l : Str)
    (h : ∀ c ∈ l, p c = false) : l.dropWhile p = l := by
  cases l with
  | nil => rfl
  | cons a t =>
    apply List.dropWhile_cons_of_neg
    simp [h a (List.mem_cons_self a t)]

theorem dropWhile_append_of_not_all (p : Char → Bool) (l r : Str)
    (h : ∃ c ∈ l, p c = false) : (l ++ r).dropWhile p = l.dropWhile p ++ r := by
  induction l with
  | nil => simp at h
  | cons a t ih =>
    by_cases ha : p a
    · rw [List.cons_append, List.dropWhile_cons_of_pos ha, List.dropWhile_cons_of_pos ha]
      apply ih
      rcases h with ⟨c, hc, hpc⟩
      rcases List.mem_cons.mp hc with rfl | hct
      · simp [ha] at hpc
      · exact ⟨c, hct, hpc⟩
    · rw [List.cons_append, List.dropWhile_cons_of_neg ha, List.dropWhile_cons_of_neg ha]
      rfl

theorem trimR_all_nonspace (w : Str) (h : ∀ c ∈ w, isSpace c = false) :
    trimR w = w := by
  unfold trimR
  rw [dropWhile_eq_self_of_all_neg isSpace w.reverse (fun c hc => h c (List.mem_reverse.mp hc))]
  exact w.reverse_reverse

theorem trimR_append (x m : Str) (h : ∃ c ∈ m, isSpace c = false) :
    trimR (x ++ m) = x ++ trimR m := by
  unfold trimR
  rw [List.reverse_append]
  rw [dropWhile_append_of_not_all isSpace m.reverse x.reverse
        (by rcases h with ⟨c, hc, hpc⟩; exact ⟨c, List.mem_reverse.mpr hc, hpc⟩)]
  rw [List.reverse_append, List.reverse_reverse]

theorem dropWhile_append_all_pos (p : Char → Bool) (s r : Str)
    (h : ∀ c ∈ s, p c = true) : (s ++ r).dropWhile p = r.dropWhile p := by
  induction s with
  | nil => rfl
  | cons a t ih =>
    rw [List.cons_append, List.dropWhile_cons_of_pos (h a (List.mem_cons_self a t))]
    exact ih (fun c hc => h c (List.mem_cons_of_mem a hc))

theorem trimR_append' (w s : Str) (hw : ∀ c ∈ w, isSpace c = false)
    (hs : ∀ c ∈ s, isSpace c = true) : trimR (w ++ s) = w := by
  unfold trimR
  rw [List.reverse_append]
  rw [dropWhile_append_all_pos isSpace s.reverse w.reverse
        (fun c hc => hs c (List.mem_reverse.mp hc))]
  rw [dropWhile_eq_self_of_all_neg isSpace w.reverse
        (fun c hc => hw c (List.mem_reverse.mp hc))]
  exact w.reverse_reverse

theorem collapseWsAux_nonspace_run (w r : Str) (h : ∀ c ∈ w, isSpace c = false) :
    collapseWsAux (w ++ r) false = w ++ collapseWsAux r false := by
  induction w with
  | nil => rfl
  | cons a t ih =>
    have ha : isSpace a = false := h a (List.mem_cons_self a t)
    rw [List.cons_append]
    rw [collapseWsAux]
    simp only [ha, Bool.false_eq_true, if_false]
    rw [ih (fun c hc => h c (List.mem_cons_of_mem a hc))]
    rfl

theorem collapseWsAux_space_run_true (s r : Str) (h : ∀ c ∈ s, isSpace c = true) :
    collapseWsAux (s ++ r) true = collapseWsAux r true := by
  induction s with
  | nil => rfl
  | cons a t ih =>
    have ha : isSpace a = true := h a (List.mem_cons_self a t)
    rw [List.cons_append, collapseWsAux]
    simp only [ha, if_true]
    exact ih (fun c hc => h c (List.mem_cons_of_mem a hc))

theorem collapseWsAux_space_run_false (s r : Str) (hne : s ≠ [])
    (h : ∀ c ∈ s, isSpace c = true) :
    collapseWsAux (s ++ r) false = '-' :: collapseWsAux r true := by
  cases s with
  | nil => exact absurd rfl hne
  | cons a t =>
    have ha : isSpace a = true := h a (List.mem_cons_self a t)
    rw [List.cons_append, collapseWsAux]
    simp only [ha, if_true, Bool.false_eq_true, if_false]
    rw [collapseWsAux_space_run_true t r (fun c hc => h c (List.mem_cons_of_mem a hc))]

theorem collapseWsAux_true_eq_false_of_head (r : Str)
    (h : r = [] ∨ ∃ c t, r = c :: t ∧ isSpace c = false) :
    collapseWsAux r true = collapseWsAux r false := by
  rcases h with rfl | ⟨c, t, rfl, hc⟩
  · rfl
  · rw [collapseWsAux, collapseWsAux]
    simp [hc]

theorem takeWhile_all (p : Char → Bool) (l : Str) :
    ∀ c ∈ l.takeWhile p, p c = true := by
  intro c hc
  exact List.mem_takeWhile_imp hc

theorem dropWhile_idem (p : Char → Bool) (l : Str) :
    (l.dropWhile p).dropWhile p = l.dropWhile p := by
  rcases h : l.dropWhile p with _ | ⟨c, t⟩
  · rfl
  · have := dropWhile_head_false p l c t h
    exact List.dropWhile_cons_of_neg (by simp [this])

theorem wordsBy_dropWhile (l : Str) : wordsBy (l.dropWhile isSpace) = wordsBy l := by
  rw [wordsBy, wordsBy, dropWhile_idem]

/-- The heart of the `slugify` characterization: on a string with no leading
whitespace, right-trimming and collapsing whitespace runs to hyphens is the
same as joining the whitespace-delimited words with hyphens. -/
theorem collapse_trim_eq_join (n : Nat) :
    ∀ m : Str, m.length ≤ n → m.dropWhile isSpace = m →
      collapseWs (trimR m) = joinHyphen (wordsBy m) := by
  induction n with
  | zero =>
    intro m hlen _
    have : m = [] := List.eq_nil_of_length_eq_zero (Nat.le_zero.mp hlen)
    subst this
    simp [wordsBy, joinHyphen, collapseWs, collapseWsAux, trimR]
  | succ n ih =>
    intro m hlen hm
    cases m with
    | nil => simp [wordsBy, joinHyphen, collapseWs, collapseWsAux, trimR]
    | cons a t =>
      have ha : isSpace a = false := by
        by_contra hc
        rw [List.dropWhile_cons_of_pos (by simpa using hc)] at hm
        have := congrArg List.length hm
        have hd := length_dropWhile_le isSpace t
        simp at this
        omega
      -- decompose into the first word `w` and the remainder `r`
      set w := (a :: t).takeWhile (fun x => !isSpace x) with hw
      set r := (a :: t).dropWhile (fun x => !isSpace x) with hr
      have hsplit : w ++ r = a :: t := by
        rw [hw, hr]; exact List.takeWhile_append_dropWhile _ _
      have hwns : ∀ c ∈ w, isSpace c = false := by
        intro c hc
        have := takeWhile_all (fun x => !isSpace x) (a :: t) c hc
        simpa using this
      have hwne : w ≠ [] := by
        rw [hw, List.takeWhile_cons_of_pos (by simp [ha])]
        simp
      have hwords : wordsBy (a :: t) = w :: wordsBy r := by
        rw [wordsBy, hm]
      cases hrc : r with
      | nil =>
        -- the whole string is one word
        have hmw : a :: t = w := by rw [← hsplit, hrc, List.append_nil]
        rw [hwords, hrc]
        rw [← hmw] at hwns ⊢
        rw [trimR_all_nonspace _ hwns]
        unfold collapseWs
        rw [← List.append_nil (a :: t), collapseWsAux_nonspace_run _ _ hwns]
        simp [wordsBy, joinHyphen, collapseWsAux]
      | cons b rt =>
        have hb : isSpace b = true := by
          have := dropWhile_head_false (fun x => !isSpace x) (a :: t) b rt (hr ▸ hrc)
          simpa using this
        -- split the remainder into its leading space run and the rest
        set s1 := r.takeWhile isSpace with hs1
        set m' := r.dropWhile isSpace with hm'
        have hs1r : s1 ++ m' = r := by
          rw [hs1, hm']; exact List.takeWhile_append_dropWhile _ _
        have hs1sp : ∀ c ∈ s1, isSpace c = true := takeWhile_all isSpace r
        have hs1ne : s1 ≠ [] := by
          rw [hs1, hrc, List.takeWhile_cons_of_pos hb]
          simp
        have hm'drop : m'.dropWhile isSpace = m' := hm' ▸ dropWhile_idem isSpace r
        cases hm'c : m' with
        | nil =>
          -- only trailing whitespace after the single word
          have hmw : a :: t = w ++ s1 := by
            rw [← hsplit, ← hs1r, hm'c, List.append_nil]
          rw [hwords]
          have : wordsBy r = [] := by
            rw [← wordsBy_dropWhile r, ← hm', hm'c]
            simp [wordsBy]
          rw [this]
          rw [hmw, trimR_append' (w := w) (s := s1) hwns hs1sp]
          unfold collapseWs
          rw [← List.append_nil w, collapseWsAux_nonspace_run _ _ hwns]
          simp [joinHyphen, collapseWsAux]
        | cons c' mt =>
          have hc' : isSpace c' = false := dropWhile_head_false isSpace r c' mt (hm' ▸ hm'c)
          have hm'nonsp : ∃ c ∈ m', isSpace c = false := by
            rw [hm'c]; exact ⟨c', List.mem_cons_self c' mt, hc'⟩
          have hmdecomp : a :: t = (w ++ s1) ++ m' := by
            rw [List.append_assoc, hs1r, hsplit]
          -- trim: the trailing trim happens entirely inside m'
          have htrim : trimR (a :: t) = (w ++ s1) ++ trimR m' := by
            rw [hmdecomp]
            exact trimR_append (w ++ s1) m' hm'nonsp
          -- head of `trimR m'` is the nonspace `c'`
          have htrimhead : trimR m' = [] ∨ ∃ c t', trimR m' = c :: t' ∧ isSpace c = false := by
            rcases htm : trimR m' with _ | ⟨x, xs⟩
            · exact Or.inl rfl
            · right
              refine ⟨x, xs, rfl, ?_⟩
              have hpre : trimR m' <+: m' := by
                unfold trimR
                have : (m'.reverse.dropWhile isSpace) <:+ m'.reverse := List.dropWhile_suffix isSpace
                rcases this with ⟨pre, hpre⟩
                refine ⟨pre.reverse, ?_⟩
                rw [← List.reverse_append, hpre, List.reverse_reverse]
              rcases hpre with ⟨post, hpost⟩
              rw [htm] at hpost
              rw [hm'c] at hpost
              cases hpost
              exact hc'
          rw [hwords, htrim]
          unfold collapseWs
          rw [List.append_assoc, collapseWsAux_nonspace_run _ _ hwns,
              collapseWsAux_space_run_false s1 _ hs1ne hs1sp,
              collapseWsAux_true_eq_false_of_head _ htrimhead]
          have hwr : wordsBy r = wordsBy m' := by
            rw [← wordsBy_dropWhile r, hm']
          rw [hwr]
          have hm'len : m'.length ≤ n := by
            have h1 := congrArg List.length hmdecomp
            simp at h1
            have hwlen : 0 < w.length := List.length_pos.mpr hwne
            have hs1len : 0 < s1.length := List.length_pos.mpr hs1ne
            simp at hlen
            omega
          have hihm := ih m' hm'len hm'drop
          unfold collapseWs at hihm
          rw [hihm]
          have hwm'ne : wordsBy m' ≠ [] := by
            rw [wordsBy, hm'drop]
            rw [hm'c]
            simp
          rcases hwbc : wordsBy m' with _ | ⟨u, us⟩
          · exact absurd hwbc hwm'ne
          · simp [joinHyphen]

/-- What `slugify` actually computes, in the spec's vocabulary: strip
diacritics and lowercase, drop every character that is not a lowercase
letter, digit, whitespace or hyphen, then join the whitespace-delimited words
with single hyphens. -/
def specAmendedSlugify (s : Str) : Str :=
  joinHyphen (wordsBy ((s.map (fun c => (deaccent c).toLower)).filter slugKeep))

theorem slugify_eq_specAmendedSlugify (s : Str) : slugify s = specAmendedSlugify s := by
  unfold slugify specAmendedSlugify
  rw [trimStr_eq_trimR]
  rw [← wordsBy_dropWhile]
  exact collapse_trim_eq_join
    (((s.map (fun c => (deaccent c).toLower)).filter slugKeep).dropWhile isSpace).length
    _ le_rfl (dropWhile_idem _ _)

/-- The slug the SPEC describes (claim C9's wording): lowercase with
diacritics stripped, every maximal run of non-alphanumeric characters
collapsed to a single hyphen, leading and trailing hyphens removed.  Written
from the spec's words, to be compared with the source's `slugify`. -/
def isAlnumLower (c : Char) : Bool :=
  ('a' ≤ c && c ≤ 'z') || ('0' ≤ c && c ≤ '9')

def specCollapseRuns : Str → Bool → Str
  | [], _ => []
  | c :: t, inRun =>
    if isAlnumLower c then c :: specCollapseRuns t false
    else if inRun then specCollapseRuns t true
    else '-' :: specCollapseRuns t true

def specSlugify (s : Str) : Str :=
  let low := s.map (fun c => (deaccent c).toLower)
  let hy := specCollapseRuns low false
  (((hy.dropWhile (· = '-')).reverse.dropWhile (· = '-')).reverse)

/-! ### Spec-side views of the typeahead tiers -/

/-- Tier of a candidate in the spec's vocabulary: 0 when the normalized query
is a prefix of the normalized candidate, 1 when it occurs strictly inside it,
2 otherwise. -/
def tier (query x : Str) : Nat :=
  if norm query <+: norm x then 0 else if norm query <:+: norm x then 1 else 2

theorem rankEntry_item (q : Str) (f : Bool) (x : Str) : (rankEntry q f x).item = x := rfl

theorem rankEntry_rank_eq_tier (query x : Str) (f : Bool) :
    (rankEntry (norm query) f x).rank = tier query x := by
  unfold rankEntry tier
  dsimp only
  by_cases hp : indexOf (norm x) (norm query) = 0
  · rw [if_pos hp, if_pos ((indexOf_eq_zero_iff _ _).mp hp)]
  · rw [if_neg hp]
    by_cases hpre : norm query <+: norm x
    · exact absurd ((indexOf_eq_zero_iff _ _).mpr hpre) hp
    · rw [if_neg hpre]
      by_cases hin : norm query <:+: norm x
      · have h0 : 0 ≤ indexOf (norm x) (norm query) := (indexOf_nonneg_iff _ _).mpr hin
        rw [if_pos (by omega), if_pos hin]
      · have h0 : ¬0 ≤ indexOf (norm x) (norm query) := fun hc =>
          hin ((indexOf_nonneg_iff _ _).mp hc)
        rw [if_neg (by omega), if_neg hin]

theorem keepEntry_rankEntry_iff (q x : Str) :
    keepEntry q (rankEntry q true x) = true ↔
      q <:+: norm x ∨ levenshtein (q.take 32) ((norm x).take 64) ≤ fuzzyThreshold q := by
  unfold keepEntry rankEntry
  dsimp only
  by_cases hp : indexOf (norm x) q = 0
  · simp only [hp, if_pos rfl]
    have : q <:+: norm x := ((indexOf_eq_zero_iff _ _).mp hp).isInfix
    simp [this]
  · by_cases hc : 0 < indexOf (norm x) q
    · have : q <:+: norm x := (indexOf_nonneg_iff _ _).mp (by omega)
      simp only [if_neg hp, if_pos hc]
      simp [this]
    · have hni : ¬q <:+: norm x := fun h => by
        have := (indexOf_nonneg_iff (norm x) q).mpr h
        rcases lt_or_eq_of_le this with h1 | h1
        · exact hc h1
        · exact hp h1.symm
      simp only [if_neg hp, if_neg hc]
      simp [hni]

/-- Membership in the output of the ranked filter (nonempty query, fuzzy on):
exactly the candidates whose normalized form contains the normalized query,
or whose truncated Levenshtein distance is within the ceiling. -/
theorem mem_rankedAlphabeticalFilter (list : List Str) (query x : Str)
    (hq : query ≠ []) :
    x ∈ rankedAlphabeticalFilter list query true ↔
      x ∈ list ∧ (norm query <:+: norm x ∨
        levenshtein ((norm query).take 32) ((norm x).take 64) ≤ fuzzyThreshold (norm query)) := by
  unfold rankedAlphabeticalFilter
  rw [if_neg hq]
  dsimp only
  rw [List.mem_map]
  constructor
  · rintro ⟨e, he, rfl⟩
    have he' : e ∈ (list.map (rankEntry (norm query) true)).filter (keepEntry (norm query)) :=
      (List.perm_insertionSort entryLe _).mem_iff.mp he
    rw [List.mem_filter] at he'
    rcases he' with ⟨hmem, hkeep⟩
    rw [List.mem_map] at hmem
    rcases hmem with ⟨y, hy, rfl⟩
    rw [rankEntry_item]
    exact ⟨hy, (keepEntry_rankEntry_iff _ _).mp hkeep⟩
  · rintro ⟨hx, hcond⟩
    refine ⟨rankEntry (norm query) true x, ?_, rankEntry_item _ _ _⟩
    apply (List.perm_insertionSort entryLe _).mem_iff.mpr
    rw [List.mem_filter]
    exact ⟨List.mem_map.mpr ⟨x, hx, rfl⟩, (keepEntry_rankEntry_iff _ _).mpr hcond⟩

/-- The output of the ranked filter is ordered by tier: prefix matches come
before strict-substring matches, which come before fuzzy-only matches. -/
theorem pairwise_tier_rankedAlphabeticalFilter (list : List Str) (query : Str)
    (hq : query ≠ []) :
    List.Pairwise (fun a b => tier query a ≤ tier query b)
      (rankedAlphabeticalFilter list query true) := by
  unfold rankedAlphabeticalFilter
  rw [if_neg hq]
  dsimp only
  rw [List.pairwise_map]
  have hsorted := List.sorted_insertionSort entryLe
    ((list.map (rankEntry (norm query) true)).filter (keepEntry (norm query)))
  have hperm := List.perm_insertionSort entryLe
    ((list.map (rankEntry (norm query) true)).filter (keepEntry (norm query)))
  apply List.Pairwise.imp_of_mem ?_ hsorted
  intro a b ha hb hle
  have hsubst : ∀ e, e ∈ List.insertionSort entryLe
      ((list.map (rankEntry (norm query) true)).filter (keepEntry (norm query))) →
      e.rank = tier query e.item := by
    intro e he
    have := hperm.mem_iff.mp he
    rw [List.mem_filter] at this
    rcases List.mem_map.mp this.1 with ⟨y, _, rfl⟩
    rw [rankEntry_item]
    exact rankEntry_rank_eq_tier query y true
  have hr : a.rank ≤ b.rank := by
    unfold entryLe at hle
    rw [cmpEntry_le_zero_iff] at hle
    rcases hle with h | ⟨h, _⟩
    · exact h.le
    · exact h.le
  rw [← hsubst a ha, ← hsubst b hb]
  exact hr

/-! ### The `reviews` table and `GET /api/reviews`
(`pages/api/reviews.ts`, duplicated in the repo as two identical variants). -/

/-- A row of the `reviews` table as selected by `handleGet`. -/
structure DBReview where
  id : Str
  created_at : Option Str
  inserted_at : Option Str
  county : Str
  region : Str
  estate : Str
  rating : Option Rat
  title : Str
  body : Str
  user_display : Option Str
  status : Str
  deleted_at : Option Str
deriving DecidableEq, Repr

/-- The query string of `GET /api/reviews`; absent parameters are `none`.
JS destructuring defaults: `status` defaults to `"approved"`, the place
filters to `""`. -/
structure GetQuery where
  status : Option Str
  county : Option Str
  region : Option Str
  estate : Option Str
deriving Repr

/-- The lean public shape `handleGet` maps each row to. -/
structure PublicReview where
  id : Str
  createdAt : Option Str
  rating : Option Rat
  title : Str
  body : Str
  user : Option Str
deriving DecidableEq, Repr

/-- JS `a || b` on nullable strings (`null` and `""` are falsy). -/
def jsOrStr (a b : Option Str) : Option Str :=
  match a with
  | some s => if s = [] then b else some s
  | none => b

/-- JS `a || undefined` on a nullable string. -/
def jsOrUndef (a : Option Str) : Option Str :=
  match a with
  | some s => if s = [] then none else some s
  | none => none

/-- `r => ({ id, createdAt: r.created_at || r.inserted_at, rating, title,
body, user: r.user_display || undefined })`. -/
def pubReview (r : DBReview) : PublicReview :=
  ⟨r.id, jsOrStr r.created_at r.inserted_at, r.rating, r.title, r.body,
    jsOrUndef r.user_display⟩

/-- `order("created_at", { ascending: false })`: descending by `created_at`
(nulls first, PostgREST's default for descending). -/
def createdDesc (a b : DBReview) : Bool :=
  match a.created_at, b.created_at with
  | none, _ => true
  | some _, none => false
  | some x, some y => lexCmp y x ≤ 0

/-- The row filter built by `handleGet`: `.eq("status", status)
.is("deleted_at", null)` plus the optional place equality filters. -/
def getRowFilter (status county region estate : Str) (r : DBReview) : Bool :=
  decide (r.status = status) && decide (r.deleted_at = none)
    && (decide (county = []) || decide (r.county = county))
    && (decide (region = []) || decide (r.region = region))
    && (decide (estate = []) || decide (r.estate = estate))

/-- `handleGet` from `pages/api/reviews.ts`: select rows matching the status
(query parameter, default `"approved"`), `deleted_at` null and the optional
place filters, newest first, limit 500, mapped to the public shape. -/
def handleGet (q : GetQuery) (store : List DBReview) : List PublicReview :=
  let status := q.status.getD "approved".data
  let county := q.county.getD []
  let region := q.region.getD []
  let estate := q.estate.getD []
  let rows := store.filter (getRowFilter status county region estate)
  ((List.insertionSort (fun a b => createdDesc a b = true) rows).take 500).map pubReview

/-! ### The moderation endpoint (`pages/api/moderation.ts`) -/

/-- The request headers the moderation handler reads. -/
structure ModHeaders where
  authorization : Option Str
  xModToken : Option Str
deriving Repr

/-- The JSON body of `POST /api/moderation`.  The handler destructures only
`{ id, action }`; an `ids` array, if sent, is carried in the payload but
never read. -/
structure ModBody where
  id : Option Str
  action : Option Str
  ids : Option (List Str)
deriving Repr

inductive ModResponse where
  | serverError
  | unauthorized
  | badPayload
  | okStatus (status : Str)
deriving DecidableEq, Repr

/-- `const auth = req.headers.authorization || ""; const token =
auth.startsWith("Bearer ") ? auth.slice(7) : req.headers["x-mod-token"]`. -/
def extractToken (h : ModHeaders) : Option Str :=
  let auth := h.authorization.getD []
  if ("Bearer ".data).isPrefixOf auth then some (auth.drop 7) else h.xModToken

/-- `.update(...).eq("id", id).limit(1)`: update the first matching row. -/
def updateFirst (p : DBReview → Bool) (f : DBReview → DBReview) :
    List DBReview → List DBReview
  | [] => []
  | r :: t => if p r then f r :: t else r :: updateFirst p f t

/-- `.delete().eq("id", id).limit(1)`: remove the first matching row. -/
def eraseFirst (p : DBReview → Bool) : List DBReview → List DBReview
  | [] => []
  | r :: t => if p r then t else r :: eraseFirst p t

/-- `POST` branch of the `pages/api/moderation.ts` handler.  `cfgOk` models
the presence of the storage env vars.  Accepted actions are exactly
`approve`, `reject`, `delete`; `delete` issues a row **delete** against the
store, and there is no `restore` action. -/
def moderationPost (cfgOk : Bool) (modToken : Str) (hdrs : ModHeaders)
    (body : ModBody) (store : List DBReview) : ModResponse × List DBReview :=
  if ¬cfgOk then (ModResponse.serverError, store)
  else
    let token := extractToken hdrs
    match token with
    | none => (ModResponse.unauthorized, store)
    | some tok =>
      if tok = [] ∨ tok ≠ modToken then (ModResponse.unauthorized, store)
      else
        let idOk : Bool := match body.id with | some i => decide (i ≠ []) | none => false
        let actionOk : Bool := match body.action with
          | some a => decide (a = "approve".data) || decide (a = "reject".data)
              || decide (a = "delete".data)
          | none => false
        if !idOk || !actionOk then (ModResponse.badPayload, store)
        else
          let id := body.id.getD []
          let action := body.action.getD []
          if action = "delete".data then
            (ModResponse.okStatus "deleted".data, eraseFirst (fun r => r.id == id) store)
          else
            let newStatus := if action = "approve".data
              then "approved".data else "rejected".data
            (ModResponse.okStatus newStatus,
              updateFirst (fun r => r.id == id) (fun r => { r with status := newStatus }) store)

/-! ### Review submission (`handlePost` of the duplicated
`pages/api/reviews.ts` variant with validation, honeypot and the in-memory
rate limiter) -/

/-- The JSON body of `POST /api/reviews` before normalization; absent fields
are `none`.  `rating` is `Number(raw.rating ?? 0)`: an absent field arrives
as `some 0`, a non-numeric one as `none` (NaN). -/
structure RawPayload where
  county : Option Str
  region : Option Str
  estate : Option Str
  rating : Option Rat
  title : Option Str
  body : Option Str
  user : Option Str
  website : Option Str
deriving Repr

/-- The normalized payload the handler builds with `String(x ?? "").trim()`
and friends. -/
structure Payload where
  county : Str
  region : Str
  estate : Str
  rating : Option Rat
  title : Str
  body : Str
  user : Option Str
  website : Str
deriving Repr

def normalizePayload (raw : RawPayload) : Payload where
  county := trimStr (raw.county.getD [])
  region := trimStr (raw.region.getD [])
  estate :=
    let e := trimStr (raw.estate.getD "All Areas".data)
    if e = [] then "All Areas".data else e
  rating := raw.rating
  title := trimStr (raw.title.getD [])
  body := trimStr (raw.body.getD [])
  user :=
    let u := trimStr (raw.user.getD [])
    if u = [] then none else some u
  website := trimStr (raw.website.getD [])

/-- `Number.isNaN(rating) || rating < 1 || rating > 5`. -/
def ratingInvalid (ro : Option Rat) : Prop :=
  match ro with
  | none => True
  | some r => r < 1 ∨ 5 < r

instance (ro : Option Rat) : Decidable (ratingInvalid ro) :=
  match ro with
  | none => isTrue trivial
  | some r => inferInstanceAs (Decidable (r < 1 ∨ 5 < r))

/-- The `errors` array the handler accumulates, in push order.  Note it
checks `rating < 1 || rating > 5` (plus NaN) but never integrality. -/
def validationErrors (p : Payload) : List Str :=
  (if p.county = [] then ["county is required".data] else []) ++
  (if p.region = [] then ["region is required".data] else []) ++
  (if ratingInvalid p.rating then ["rating must be 1..5".data] else []) ++
  (if p.title = [] then ["title is required".data] else []) ++
  (if p.body = [] then ["body is required".data] else []) ++
  (if 120 < p.title.length then ["title too long".data] else []) ++
  (if 5000 < p.body.length then ["body too long".data] else [])

/-- Generic assoc-list lookup, the model of reading a JS `Map`/object key. -/
def lookupKey {α : Type} : List (Str × α) → Str → Option α
  | [], _ => none
  | (k', v) :: t, k => if k' = k then some v else lookupKey t k

/-- Generic assoc-list write: replace the first binding of `k`, or append a
new one (JS `Map.set` / object assignment keeps insertion order). -/
def setKey {α : Type} : List (Str × α) → Str → α → List (Str × α)
  | [], k, v => [(k, v)]
  | (k', v') :: t, k, v =>
    if k' = k then (k, v) :: t else (k', v') :: setKey t k v

/-- One slot of the in-memory `ipHits` map. -/
structure RateSlot where
  n : Nat
  reset : Int
deriving DecidableEq, Repr

/-- `hit(ip)` with `windowMs = 60_000` and `maxPerWindow = 5`: fixed window
anchored at the first hit; returns whether the call is over the limit along
with the updated map. -/
def hit (now : Int) (ip : Str) (m : List (Str × RateSlot)) :
    Bool × List (Str × RateSlot) :=
  match lookupKey m ip with
  | none => (false, setKey m ip ⟨1, now + 60000⟩)
  | some slot =>
    if slot.reset < now then (false, setKey m ip ⟨1, now + 60000⟩)
    else (decide (5 < slot.n + 1), setKey m ip ⟨slot.n + 1, slot.reset⟩)

/-- The JSON body `handlePost` responds with, one field per JSON key it can
emit (`ok`, `skipped`, `id`, `error`, `details`). -/
structure PostResponse where
  status : Nat
  ok : Bool
  skipped : Bool
  id : Option Str
  error : Option Str
  details : List Str
deriving DecidableEq, Repr

def respNotConfigured : PostResponse :=
  ⟨500, false, false, none, some "Storage not configured".data, []⟩
def respUnsupportedMedia : PostResponse :=
  ⟨415, false, false, none, some "Content-Type must be application/json".data, []⟩
def respOkSkipped : PostResponse := ⟨200, true, true, none, none, []⟩
def respInvalid (details : List Str) : PostResponse :=
  ⟨400, false, false, none, some "Invalid payload".data, details⟩
def respTooMany : PostResponse :=
  ⟨429, false, false, none, some "Too many requests, slow down.".data, []⟩
def respOkCreated (id : Str) : PostResponse := ⟨200, true, false, some id, none, []⟩

/-- The row inserted by `handlePost` (`status: "pending"`; timestamps are
filled in by the store). -/
def insertReview (newId : Str) (p : Payload) : DBReview :=
  ⟨newId, none, none, p.county, p.region,
    (if p.estate = [] then "All Areas".data else p.estate),
    p.rating, p.title, p.body, p.user, "pending".data, none⟩

/-- `handlePost` of the duplicated `pages/api/reviews.ts` variant: storage
check, content-type check, honeypot, validation (collecting every failing
field), in-memory rate limit, then insert as pending.  The best-effort email
afterwards touches no state. -/
def handlePost (cfgOk ctJson : Bool) (raw : RawPayload) (ip : Str) (now : Int)
    (newId : Str) (store : List DBReview) (hits : List (Str × RateSlot)) :
    PostResponse × List DBReview × List (Str × RateSlot) :=
  if !cfgOk then (respNotConfigured, store, hits)
  else if !ctJson then (respUnsupportedMedia, store, hits)
  else
    let p := normalizePayload raw
    if p.website ≠ [] then (respOkSkipped, store, hits)
    else
      let errors := validationErrors p
      if errors ≠ [] then (respInvalid errors, store, hits)
      else
        let h := hit now ip hits
        if h.1 then (respTooMany, store, h.2)
        else (respOkCreated newId, store ++ [insertReview newId p], h.2)

/-! ### The hourly, hashed-IP rate limit of the canonical
`pages/api/reviews.ts` (the variant backed by `submission_log`) -/

/-- One row of `submission_log`. -/
structure SubLogEntry where
  ip_hash : Str
  inserted_at : Int
deriving DecidableEq, Repr

/-- The review row this variant inserts (its table uses `town` and carries
`name`/`email`). -/
structure NamedReviewRow where
  county : Str
  town : Str
  estate : Str
  rating : Option Rat
  title : Str
  body : Str
  name : Str
  email : Option Str
  status : Str
deriving DecidableEq, Repr

structure ReviewsState where
  log : List SubLogEntry
  reviews : List NamedReviewRow
deriving DecidableEq, Repr

structure RLConfig where
  secret : Str
  perHour : Nat
  captchaConfigured : Bool
deriving Repr

structure NamedPayload where
  county : Str
  town : Str
  estate : Str
  rating : Option Rat
  title : Str
  body : Str
  name : Str
  email : Option Str
deriving Repr

inductive ReviewsResp where
  | methodNotAllowed
  | tooMany
  | captchaFailed
  | okPending
deriving DecidableEq, Repr

/-- `hashIp`: identity without a secret, else HMAC-SHA256 of the IP keyed by
the secret — the HMAC itself is external crypto, abstracted as the `hmac`
argument. -/
def hashIp (hmac : Str → Str → Str) (secret ip : Str) : Str :=
  if secret = [] then ip else hmac secret ip

/-- The default handler of the canonical `pages/api/reviews.ts`: POST only;
when `RATE_LIMIT_SECRET` is set, count `submission_log` rows for this hashed
IP with `inserted_at` in the trailing hour and reject with 429 when the count
has reached `RATE_LIMIT_PER_HOUR`; then captcha (always-pass when
unconfigured, fail on a missing token otherwise); then append a log row and
insert the review as pending.  Timestamps are epoch milliseconds, standing in
for the ISO strings the code compares. -/
def reviewsHandler (hmac : Str → Str → Str) (cfg : RLConfig) (captchaOk : Bool)
    (method : Str) (ip : Str) (payload : NamedPayload) (token : Option Str)
    (now : Int) (st : ReviewsState) : ReviewsResp × ReviewsState :=
  if method ≠ "POST".data then (ReviewsResp.methodNotAllowed, st)
  else
    let ipHash := hashIp hmac cfg.secret ip
    let since := now - 3600000
    let count := st.log.countP (fun e => e.ip_hash == ipHash && decide (since ≤ e.inserted_at))
    if cfg.secret ≠ [] ∧ cfg.perHour ≤ count then (ReviewsResp.tooMany, st)
    else
      let cap : Bool :=
        if !cfg.captchaConfigured then true
        else match token with | none => false | some _ => captchaOk
      if !cap then (ReviewsResp.captchaFailed, st)
      else
        let log' := if cfg.secret ≠ [] then st.log ++ [⟨ipHash, now⟩] else st.log
        (ReviewsResp.okPending,
          ⟨log', st.reviews ++ [⟨payload.county, payload.town, payload.estate,
            payload.rating, payload.title, payload.body, payload.name,
            payload.email, "pending".data⟩]⟩)

/-- Run a sequence of submissions through `reviewsHandler`, collecting the
responses (used to express the six-submissions scenario). -/
def runSubmissions (hmac : Str → Str → Str) (cfg : RLConfig) (captchaOk : Bool)
    (ip : Str) (payload : NamedPayload) (token : Option Str) :
    List Int → ReviewsState → List ReviewsResp × ReviewsState
  | [], st => ([], st)
  | t :: ts, st =>
    let r := reviewsHandler hmac cfg captchaOk "POST".data ip payload token t st
    let rest := runSubmissions hmac cfg captchaOk ip payload token ts r.2
    (r.1 :: rest.1, rest.2)

/-! ### The place index: `parseSimpleCSV` and `mergeData`
(from the page variant that loads and merges the CSV sources) -/

/-- `County → Town → [Estate]`, keys in insertion order as a JS object. -/
abbrev DataShape := List (Str × List (Str × List Str))

/-- The quoted-cell alternative `"([^"]|"")*"` of `splitCSVLine`'s regex,
applied after an opening quote: returns the body (with escape pairs intact)
and the input after the closing quote.  The `"" `-pair case backtracks the
way the regex engine does: prefer reading an escaped pair, and fall back to
treating the first quote as the closing one. -/
def quotedBody : Str → Option (Str × Str)
  | [] => none
  | [c] => if c = '"' then some ([], []) else none
  | c :: c2 :: rest2 =>
    if c = '"' then
      if c2 = '"' then
        match quotedBody rest2 with
        | some (b, r) => some ('"' :: '"' :: b, r)
        | none => some ([], '"' :: rest2)
      else some ([], c2 :: rest2)
    else (quotedBody (c2 :: rest2)).map (fun p => (c :: p.1, p.2))

theorem quotedBody_length (n : Nat) :
    ∀ l b r : Str, l.length ≤ n → quotedBody l = some (b, r) →
      r.length < l.length := by
  induction n with
  | zero =>
    intro l b r hlen h
    have : l = [] := List.eq_nil_of_length_eq_zero (Nat.le_zero.mp hlen)
    subst this
    simp [quotedBody] at h
  | succ n ih =>
    intro l b r hlen h
    cases l with
    | nil => simp [quotedBody] at h
    | cons c rest =>
      cases rest with
      | nil =>
        rw [quotedBody] at h
        by_cases hc : c = '"'
        · rw [if_pos hc] at h
          simp at h
          rcases h with ⟨_, hr⟩
          subst hr
          simp
        · rw [if_neg hc] at h
          simp at h
      | cons c2 rest2 =>
        rw [quotedBody] at h
        by_cases hc : c = '"'
        · rw [if_pos hc] at h
          by_cases hc2 : c2 = '"'
          · rw [if_pos hc2] at h
            rcases hq : quotedBody rest2 with _ | ⟨b', r'⟩
            · rw [hq] at h
              simp at h
              rcases h with ⟨_, hr⟩
              subst hr
              simp
            · rw [hq] at h
              simp at h
              rcases h with ⟨_, hr⟩
              subst hr
              have := ih rest2 b' r' (by simp at hlen; omega) hq
              simp
              omega
          · rw [if_neg hc2] at h
            simp at h
            rcases h with ⟨_, hr⟩
            subst hr
            simp
        · rw [if_neg hc] at h
          rcases hq : quotedBody (c2 :: rest2) with _ | ⟨b', r'⟩
          · rw [hq] at h
            simp at h
          · rw [hq] at h
            simp at h
            rcases h with ⟨_, hr⟩
            subst hr
            have := ih (c2 :: rest2) b' r' (by simp at hlen ⊢; omega) hq
            simp at this ⊢
            omega

/-- The global matches of `/("([^"]|"")*"|[^,]+)/g` over a line: at each
position, try the quoted alternative first, else a maximal run of non-commas;
a position holding a comma is skipped. -/
def scanCells : Str → List Str
  | [] => []
  | c :: rest =>
    if hc : c = ',' then scanCells rest
    else if c = '"' then
      match h : quotedBody rest with
      | some (b, r) => ('"' :: b ++ ['"']) :: scanCells r
      | none =>
        ((c :: rest).takeWhile (fun x => x != ',')) ::
          scanCells ((c :: rest).dropWhile (fun x => x != ','))
    else
      ((c :: rest).takeWhile (fun x => x != ',')) ::
        scanCells ((c :: rest).dropWhile (fun x => x != ','))
  termination_by l => l.length
  decreasing_by
  · simp only [List.length_cons]
    omega
  · have := quotedBody_length _ _ _ _ le_rfl h
    simp only [List.length_cons]
    omega
  · rw [List.dropWhile_cons_of_pos (by simp [hc])]
    exact Nat.lt_of_le_of_lt (length_dropWhile_le _ _)
      (by simp only [List.length_cons]; omega)
  · rw [List.dropWhile_cons_of_pos (by simp [hc])]
    exact Nat.lt_of_le_of_lt (length_dropWhile_le _ _)
      (by simp only [List.length_cons]; omega)

/-- `.replace(/""/g, '"')`. -/
def replaceDQ : Str → Str
  | [] => []
  | [c] => [c]
  | c :: c2 :: t =>
    if c = '"' ∧ c2 = '"' then '"' :: replaceDQ t else c :: replaceDQ (c2 :: t)

/-- Unquoting of one matched cell: trim, and if the cell starts and ends with
a double quote, strip them and unescape `""`. -/
def unquoteCell (cell : Str) : Str :=
  let s := trimStr cell
  if s.head? = some '"' ∧ s.getLast? = some '"' then replaceDQ ((s.drop 1).dropLast)
  else s

/-- `splitCSVLine`: regex-match the cells, then trim/unquote each. -/
def splitCSVLine (line : Str) : List Str := (scanCells line).map unquoteCell

/-- `text.split(/\r?\n/)` (a lone `\r` is not a separator). -/
def splitLinesAux : Str → Str → List Str
  | [], acc => [acc.reverse]
  | '\r' :: '\n' :: rest, acc => acc.reverse :: splitLinesAux rest []
  | '\n' :: rest, acc => acc.reverse :: splitLinesAux rest []
  | c :: rest, acc => splitLinesAux rest (c :: acc)

def splitLines (s : Str) : List Str := splitLinesAux s []

/-- `text.replace(/^﻿/, "")`. -/
def stripBOM (s : Str) : Str :=
  match s with
  | '﻿' :: rest => rest
  | _ => s

/-- One row of `parseSimpleCSV`'s loop.  Column indices may be absent
(`indexOf` returned `-1`); a missing or empty county/town drops the row; a
missing or empty estate cell becomes `"All Areas"`; estates are deduplicated
with `includes`. -/
def parseRow (iC iT iE : Option Nat) (data : DataShape) (line : Str) : DataShape :=
  if line = [] then data
  else
    let parts := splitCSVLine line
    let county := (iC.bind (fun i => parts.get? i)).map trimStr
    let town := (iT.bind (fun i => parts.get? i)).map trimStr
    let estate := match (iE.bind (fun i => parts.get? i)).map trimStr with
      | some e => if e = [] then "All Areas".data else e
      | none => "All Areas".data
    match county, town with
    | some c, some t =>
      if c = [] ∨ t = [] then data
      else
        let towns0 := (lookupKey data c).getD []
        let estates0 := (lookupKey towns0 t).getD []
        let estates1 := if estate ∈ estates0 then estates0 else estates0 ++ [estate]
        setKey data c (setKey towns0 t estates1)
    | _, _ => data

/-- `parseSimpleCSV(text)`: strip the BOM, trim, split into lines, read the
header's `county`/`town`/`estate` column positions, and fold the data rows. -/
def parseSimpleCSV (text : Str) : DataShape :=
  let text1 := stripBOM text
  let lines := splitLines (trimStr text1)
  match lines with
  | [] => []
  | header :: rows =>
    let cols := (splitCSVLine header).map (fun h => (trimStr h).map Char.toLower)
    let iC := cols.findIdx? (· == "county".data)
    let iT := cols.findIdx? (· == "town".data)
    let iE := cols.findIdx? (· == "estate".data)
    rows.foldl (parseRow iC iT iE) []

/-- The inner estate loop of `mergeData`:
`for (const e of estates) if (!out[county][town].includes(e)) push(e)`. -/
def mergeEstates (es0 newEs : List Str) : List Str :=
  newEs.foldl (fun es e => if e ∈ es then es else es ++ [e]) es0

/-- The town loop body of `mergeData`: `out[county][town] = out[county][town]
|| []` followed by the estate loop. -/
def mergeTownsStep (oT : List (Str × List Str)) (q : Str × List Str) :
    List (Str × List Str) :=
  setKey oT q.1 (mergeEstates ((lookupKey oT q.1).getD []) q.2)

/-- The county loop body of `mergeData`: `out[county] = out[county] || {}`
followed by the town loop. -/
def mergeCountyStep (out : DataShape) (p : Str × List (Str × List Str)) : DataShape :=
  setKey out p.1 (p.2.foldl mergeTownsStep ((lookupKey out p.1).getD []))

/-- `mergeData(a, b)`: deep-copy `a` (value semantics), then union `b` into
it county by county, town by town, deduplicating estates with `includes`. -/
def mergeData (a b : DataShape) : DataShape :=
  b.foldl mergeCountyStep a

/-- Well-formedness of a `DataShape`: county keys are distinct, town keys are
distinct within each county, and each estate list is duplicate-free. -/
def WFShape (d : DataShape) : Prop :=
  (d.map (·.1)).Nodup ∧ ∀ p ∈ d, (p.2.map (·.1)).Nodup ∧ ∀ q ∈ p.2, q.2.Nodup

theorem setKey_of_lookup_self {α : Type} (d : List (Str × α)) (k : Str) (v : α)
    (h : lookupKey d k = some v) : setKey d k v = d := by
  induction d with
  | nil => simp [lookupKey] at h
  | cons p t ih =>
    rcases p with ⟨k', v'⟩
    by_cases hk : k' = k
    · subst hk
      rw [lookupKey, if_pos rfl] at h
      simp at h
      rw [setKey, if_pos rfl, h]
    · rw [lookupKey, if_neg hk] at h
      rw [setKey, if_neg hk]
      rw [ih h]

theorem lookupKey_of_mem_nodup {α : Type} (d : List (Str × α)) (k : Str) (v : α)
    (hnd : (d.map (·.1)).Nodup) (hmem : (k, v) ∈ d) : lookupKey d k = some v := by
  induction d with
  | nil => simp at hmem
  | cons p t ih =>
    rcases p with ⟨k', v'⟩
    rcases List.mem_cons.mp hmem with heq | ht
    · cases heq
      rw [lookupKey, if_pos rfl]
    · rw [List.map_cons, List.nodup_cons] at hnd
      have hk : k' ≠ k := by
        intro hkk
        subst hkk
        exact hnd.1 (List.mem_map.mpr ⟨(k', v), ht, rfl⟩)
      rw [lookupKey, if_neg hk]
      exact ih hnd.2 ht

theorem lookupKey_mem {α : Type} (d : List (Str × α)) (k : Str) (v : α)
    (h : lookupKey d k = some v) : (k, v) ∈ d := by
  induction d with
  | nil => simp [lookupKey] at h
  | cons p t ih =>
    rcases p with ⟨k', v'⟩
    by_cases hk : k' = k
    · subst hk
      rw [lookupKey, if_pos rfl] at h
      simp at h
      subst h
      exact List.mem_cons_self _ _
    · rw [lookupKey, if_neg hk] at h
      exact List.mem_cons_of_mem _ (ih h)

theorem mem_setKey {α : Type} (d : List (Str × α)) (k : Str) (v : α) (p : Str × α)
    (h : p ∈ setKey d k v) : p = (k, v) ∨ p ∈ d := by
  induction d with
  | nil => simp [setKey] at h; exact Or.inl h
  | cons q t ih =>
    rcases q with ⟨k', v'⟩
    rw [setKey] at h
    by_cases hk : k' = k
    · rw [if_pos hk] at h
      rcases List.mem_cons.mp h with heq | ht
      · exact Or.inl heq
      · exact Or.inr (List.mem_cons_of_mem _ ht)
    · rw [if_neg hk] at h
      rcases List.mem_cons.mp h with heq | ht
      · exact Or.inr (heq ▸ List.mem_cons_self _ _)
      · rcases ih ht with h1 | h1
        · exact Or.inl h1
        · exact Or.inr (List.mem_cons_of_mem _ h1)

theorem keys_setKey_mem {α : Type} (d : List (Str × α)) (k : Str) (v : α)
    (h : k ∈ d.map (·.1)) : (setKey d k v).map (·.1) = d.map (·.1) := by
  induction d with
  | nil => simp at h
  | cons q t ih =>
    rcases q with ⟨k', v'⟩
    rw [setKey]
    by_cases hk : k' = k
    · rw [if_pos hk]
      simp only [List.map_cons]
      rw [hk]
    · rw [if_neg hk]
      rw [List.map_cons] at h
      simp only [List.map_cons]
      rcases List.mem_cons.mp h with heq | hmem
      · exact absurd heq.symm hk
      · rw [ih hmem]

theorem keys_setKey_not_mem {α : Type} (d : List (Str × α)) (k : Str) (v : α)
    (h : k ∉ d.map (·.1)) : (setKey d k v).map (·.1) = d.map (·.1) ++ [k] := by
  induction d with
  | nil => simp [setKey]
  | cons q t ih =>
    rcases q with ⟨k', v'⟩
    rw [setKey]
    by_cases hk : k' = k
    · exfalso
      apply h
      rw [List.map_cons]
      exact List.mem_cons.mpr (Or.inl hk.symm)
    · rw [if_neg hk]
      simp only [List.map_cons, List.cons_append]
      rw [ih (fun hmem => h (by rw [List.map_cons]; exact List.mem_cons_of_mem _ hmem))]

theorem pushAll_self (es : List Str) :
    ∀ l : List Str, (∀ e ∈ l, e ∈ es) →
      l.foldl (fun es e => if e ∈ es then es else es ++ [e]) es = es := by
  intro l
  induction l with
  | nil => intro _; rfl
  | cons e t ih =>
    intro h
    have he : e ∈ es := h e (List.mem_cons_self e t)
    simp only [List.foldl_cons, if_pos he]
    exact ih (fun x hx => h x (List.mem_cons_of_mem e hx))

theorem pushAll_nodup (l : List Str) :
    ∀ es : List Str, es.Nodup →
      (l.foldl (fun es e => if e ∈ es then es else es ++ [e]) es).Nodup := by
  induction l with
  | nil => intro es h; exact h
  | cons e t ih =>
    intro es h
    simp only [List.foldl_cons]
    by_cases he : e ∈ es
    · rw [if_pos he]; exact ih es h
    · rw [if_neg he]
      exact ih _ (by simp [List.nodup_append, h, he])

theorem mergeEstates_self (es : List Str) (l : List Str)
    (h : ∀ e ∈ l, e ∈ es) : mergeEstates es l = es :=
  pushAll_self es l h

theorem mergeTownsStep_self (towns : List (Str × List Str)) (q : Str × List Str)
    (h : lookupKey towns q.1 = some q.2) : mergeTownsStep towns q = towns := by
  unfold mergeTownsStep
  rw [h]
  simp only [Option.getD_some]
  rw [mergeEstates_self q.2 q.2 (fun e he => he)]
  exact setKey_of_lookup_self towns q.1 q.2 h

theorem foldl_mergeTownsStep_self (towns : List (Str × List Str))
    (hnd : (towns.map (·.1)).Nodup) :
    ∀ l : List (Str × List Str), (∀ q ∈ l, q ∈ towns) →
      l.foldl mergeTownsStep towns = towns := by
  intro l
  induction l with
  | nil => intro _; rfl
  | cons q t ih =>
    intro hq
    simp only [List.foldl_cons]
    rw [mergeTownsStep_self towns q
      (lookupKey_of_mem_nodup towns q.1 q.2 hnd (by
        have := hq q (List.mem_cons_self _ _)
        simpa using this))]
    exact ih (fun x hx => hq x (List.mem_cons_of_mem _ hx))

theorem mergeCountyStep_self (d : DataShape) (p : Str × List (Str × List Str))
    (hkeys : (d.map (·.1)).Nodup) (hp : p ∈ d)
    (htkeys : (p.2.map (·.1)).Nodup) : mergeCountyStep d p = d := by
  unfold mergeCountyStep
  have hlc : lookupKey d p.1 = some p.2 :=
    lookupKey_of_mem_nodup d p.1 p.2 hkeys (by simpa using hp)
  rw [hlc]
  simp only [Option.getD_some]
  rw [foldl_mergeTownsStep_self p.2 htkeys p.2 (fun q hq => hq)]
  exact setKey_of_lookup_self d p.1 p.2 hlc

/-- Merging a well-formed index with itself changes nothing. -/
theorem mergeData_self (d : DataShape) (hwf : WFShape d) : mergeData d d = d := by
  rcases hwf with ⟨hkeys, hvals⟩
  unfold mergeData
  have : ∀ l : DataShape, (∀ p ∈ l, p ∈ d) → l.foldl mergeCountyStep d = d := by
    intro l
    induction l with
    | nil => intro _; rfl
    | cons p t ih =>
      intro hp
      simp only [List.foldl_cons]
      rw [mergeCountyStep_self d p hkeys (hp p (List.mem_cons_self _ _))
        (hvals p (hp p (List.mem_cons_self _ _))).1]
      exact ih (fun x hx => hp x (List.mem_cons_of_mem _ hx))
  exact this d (fun p hp => hp)

theorem nodup_keys_setKey {α : Type} (d : List (Str × α)) (k : Str) (v : α)
    (h : (d.map (·.1)).Nodup) : ((setKey d k v).map (·.1)).Nodup := by
  by_cases hmem : k ∈ d.map (·.1)
  · rw [keys_setKey_mem _ _ _ hmem]
    exact h
  · rw [keys_setKey_not_mem _ _ _ hmem]
    simp [List.nodup_append, h, hmem]

theorem WFShape_setKey (d : DataShape) (c : Str) (newTowns : List (Str × List Str))
    (hwf : WFShape d) (h1 : (newTowns.map (·.1)).Nodup)
    (h2 : ∀ q ∈ newTowns, q.2.Nodup) : WFShape (setKey d c newTowns) := by
  constructor
  · exact nodup_keys_setKey d c newTowns hwf.1
  · intro p hp
    rcases mem_setKey _ _ _ _ hp with heq | hmem
    · rw [heq]
      exact ⟨h1, h2⟩
    · exact hwf.2 p hmem

theorem WFShape_parseRow (iC iT iE : Option Nat) (d : DataShape) (line : Str)
    (hwf : WFShape d) : WFShape (parseRow iC iT iE d line) := by
  unfold parseRow
  by_cases hline : line = []
  · rw [if_pos hline]
    exact hwf
  · rw [if_neg hline]
    dsimp only
    split
    · rename_i cq tq c t hc ht
      have htowns : ((((lookupKey d c).getD []).map (·.1)).Nodup ∧
          ∀ q ∈ (lookupKey d c).getD [], q.2.Nodup) := by
        rcases hl : lookupKey d c with _ | towns0
        · simp
        · simp only [Option.getD_some]
          exact hwf.2 _ (lookupKey_mem d c towns0 hl)
      have hestates : (((lookupKey ((lookupKey d c).getD []) t).getD [])).Nodup := by
        rcases hl : lookupKey ((lookupKey d c).getD []) t with _ | es0
        · simp
        · simp only [Option.getD_some]
          exact htowns.2 _ (lookupKey_mem _ t es0 hl)
      split_ifs with hct hin
      · exact hwf
      · apply WFShape_setKey d c _ hwf (nodup_keys_setKey _ _ _ htowns.1)
        intro q hq
        rcases mem_setKey _ _ _ _ hq with heq2 | hmem
        · rw [heq2]
          exact hestates
        · exact htowns.2 q hmem
      · apply WFShape_setKey d c _ hwf (nodup_keys_setKey _ _ _ htowns.1)
        intro q hq
        rcases mem_setKey _ _ _ _ hq with heq2 | hmem
        · rw [heq2]
          refine List.Nodup.append hestates (List.nodup_singleton _) ?_
          intro a ha hb
          rw [List.mem_singleton] at hb
          subst hb
          exact hin ha
        · exact htowns.2 q hmem
    · exact hwf

theorem WFShape_empty : WFShape [] := by
  constructor
  · exact List.nodup_nil
  · intro p hp
    simp at hp

theorem WFShape_foldl_parseRow (iC iT iE : Option Nat) :
    ∀ (rows : List Str) (d : DataShape), WFShape d →
      WFShape (rows.foldl (parseRow iC iT iE) d) := by
  intro rows
  induction rows with
  | nil => intro d h; exact h
  | cons r t ih =>
    intro d h
    simp only [List.foldl_cons]
    exact ih _ (WFShape_parseRow iC iT iE d r h)

theorem WFShape_parseSimpleCSV (text : Str) : WFShape (parseSimpleCSV text) := by
  unfold parseSimpleCSV
  dsimp only
  split
  · exact WFShape_empty
  · exact WFShape_foldl_parseRow _ _ _ _ _ WFShape_empty

/-! ### Behaviour of single-row delete/update under unique ids -/

theorem eraseFirst_eq_filter (id : Str) (store : List DBReview)
    (hnd : (store.map (·.id)).Nodup) :
    eraseFirst (fun r => r.id == id) store = store.filter (fun r => !(r.id == id)) := by
  induction store with
  | nil => rfl
  | cons r t ih =>
    rw [List.map_cons, List.nodup_cons] at hnd
    rw [eraseFirst]
    by_cases hr : r.id = id
    · rw [if_pos (by simp [hr])]
      rw [List.filter_cons_of_neg (by simp [hr])]
      symm
      rw [List.filter_eq_self]
      intro a ha
      simp only [Bool.not_eq_true', beq_eq_false_iff_ne, ne_eq]
      intro he
      exact hnd.1 (List.mem_map.mpr ⟨a, ha, by rw [he, hr]⟩)
    · rw [if_neg (by simp [hr])]
      rw [List.filter_cons_of_pos (by simp [hr])]
      rw [ih hnd.2]

theorem updateFirst_of_not_mem (p : DBReview → Bool) (f : DBReview → DBReview)
    (store : List DBReview) (h : ∀ r ∈ store, p r = false) :
    updateFirst p f store = store := by
  induction store with
  | nil => rfl
  | cons r t ih =>
    rw [updateFirst]
    rw [if_neg (by simp [h r (List.mem_cons_self r t)])]
    rw [ih (fun x hx => h x (List.mem_cons_of_mem r hx))]

/-! ## The claims -/

/-- C8: loading the same simple-CSV source twice and merging the two indexes
yields the index of a single load (idempotent union), and the loaded index
has no duplicated county keys, town keys, or estate entries. -/
theorem c8_merge_idempotent (s : Str) :
    mergeData (parseSimpleCSV s) (parseSimpleCSV s) = parseSimpleCSV s ∧
      ((parseSimpleCSV s).map (·.1)).Nodup ∧
      ∀ p ∈ parseSimpleCSV s, (p.2.map (·.1)).Nodup ∧ ∀ q ∈ p.2, q.2.Nodup := by
  have hwf := WFShape_parseSimpleCSV s
  exact ⟨mergeData_self _ hwf, hwf.1, hwf.2⟩

/-- C9 counterexample: for the selection (Kildare, Naas, "D&D Court") the
emitted navigation target is `/kildare/naas/dd-court` — the `&` is deleted —
whereas the spec's slug (non-alphanumeric runs collapsed to a hyphen,
`specSlugify`) gives `d-d-court`, so the emitted path differs from the
spec's three-slug path. -/
theorem c9_counterexample :
    goToEstate "Kildare".data "Naas".data "D&D Court".data
        = some "/kildare/naas/dd-court".data
      ∧ specSlugify "D&D Court".data = "d-d-court".data
      ∧ ('/' :: specSlugify "Kildare".data ++ '/' :: specSlugify "Naas".data
          ++ '/' :: specSlugify "D&D Court".data) ≠ "/kildare/naas/dd-court".data := by
  refine ⟨by decide, by decide, by decide⟩

/-- C9 (amended): for every fully resolved selection the emitted target is
the three slugs joined as a three-segment path, where each slug lowercases
the name with diacritics stripped, removes characters other than lowercase
letters, digits, whitespace and hyphens, trims surrounding whitespace, and
joins the whitespace-delimited words with single hyphens (pre-existing
hyphens are kept, and leading/trailing hyphens are not removed). -/
theorem c9_amended_slug_path (county town estate : Str)
    (h1 : county ≠ []) (h2 : town ≠ []) (h3 : estate ≠ []) :
    goToEstate county town estate =
      some ('/' :: specAmendedSlugify county ++ '/' :: specAmendedSlugify town
        ++ '/' :: specAmendedSlugify estate) := by
  unfold goToEstate
  rw [if_neg (by simp [h1, h2, h3])]
  rw [slugify_eq_specAmendedSlugify, slugify_eq_specAmendedSlugify,
      slugify_eq_specAmendedSlugify]

theorem c9_amended_witness :
    goToEstate "Kildare".data "Naas".data "The Grove".data =
      some ('/' :: specAmendedSlugify "Kildare".data
        ++ '/' :: specAmendedSlugify "Naas".data
        ++ '/' :: specAmendedSlugify "The Grove".data) :=
  c9_amended_slug_path "Kildare".data "Naas".data "The Grove".data
    (by decide) (by decide) (by decide)

/-- C10: in the fuzzy tier the edit distance is computed between the
normalized query truncated to 32 characters and the normalized candidate
truncated to 64; a candidate that is neither a prefix nor a substring match
is returned exactly when that truncated distance is at most
`ceil(len(query) * 0.5)`. -/
theorem c10_truncated_fuzzy_membership (list : List Str) (query x : Str)
    (hq : query ≠ []) (hnf : ¬ norm query <:+: norm x) :
    x ∈ rankedAlphabeticalFilter list query true ↔
      x ∈ list ∧
        levenshtein ((norm query).take 32) ((norm x).take 64)
          ≤ fuzzyThreshold (norm query) := by
  rw [mem_rankedAlphabeticalFilter list query x hq]
  constructor
  · rintro ⟨hx, h | h⟩
    · exact absurd h hnf
    · exact ⟨hx, h⟩
  · rintro ⟨hx, h⟩
    exact ⟨hx, Or.inr h⟩

theorem c10_witness :
    ("stove".data ∈ rankedAlphabeticalFilter ["stove".data] "grove".data true ↔
      "stove".data ∈ ["stove".data] ∧
        levenshtein ((norm "grove".data).take 32) ((norm "stove".data).take 64)
          ≤ fuzzyThreshold (norm "grove".data)) :=
  c10_truncated_fuzzy_membership ["stove".data] "grove".data "stove".data
    (by decide) (by decide)

/-- An 80-character query, `a^40 b^40`. -/
def q80ex : Str := List.replicate 40 'a' ++ List.replicate 40 'b'

/-- A 32-character candidate, `a^32`. -/
def cand32 : Str := List.replicate 32 'a'

/-- C2 counterexample: with the 80-character query `a^40 b^40` and the lone
candidate `a^32`, the candidate is returned by the filter (its truncated
distance is 0), yet it is neither a prefix nor a substring match and its
full-string Levenshtein distance (48) exceeds `ceil(80 * 0.5) = 40` — so the
claim's membership condition, stated over full strings, is violated. -/
theorem c2_counterexample :
    cand32 ∈ rankedAlphabeticalFilter [cand32] q80ex true
      ∧ ¬(norm q80ex <+: norm cand32)
      ∧ ¬(norm q80ex <:+: norm cand32)
      ∧ ¬(levenshtein (norm q80ex) (norm cand32) ≤ fuzzyThreshold (norm q80ex)) := by
  refine ⟨by decide, by decide, by decide, by decide⟩

/-- C2 (amended): for a non-empty query the filter returns exactly the
candidates whose normalized form has the normalized query as a prefix,
contains it as a substring, or whose **truncated** Levenshtein distance
(query cut to 32 characters, candidate to 64) is at most
`ceil(len(query) * 0.5)`; and the output is ordered by tier, so every prefix
match precedes every substring-only match and every substring match precedes
every fuzzy-only match. -/
theorem c2_amended_membership_and_order (list : List Str) (query : Str)
    (hq : query ≠ []) :
    (∀ x, x ∈ rankedAlphabeticalFilter list query true ↔
        x ∈ list ∧ (norm query <+: norm x ∨ norm query <:+: norm x ∨
          levenshtein ((norm query).take 32) ((norm x).take 64)
            ≤ fuzzyThreshold (norm query)))
      ∧ List.Pairwise (fun a b => tier query a ≤ tier query b)
          (rankedAlphabeticalFilter list query true) := by
  constructor
  · intro x
    rw [mem_rankedAlphabeticalFilter list query x hq]
    constructor
    · rintro ⟨hx, h | h⟩
      · exact ⟨hx, Or.inr (Or.inl h)⟩
      · exact ⟨hx, Or.inr (Or.inr h)⟩
    · rintro ⟨hx, h | h | h⟩
      · exact ⟨hx, Or.inl h.isInfix⟩
      · exact ⟨hx, Or.inl h⟩
      · exact ⟨hx, Or.inr h⟩
  · exact pairwise_tier_rankedAlphabeticalFilter list query hq

theorem c2_amended_witness :
    (∀ x, x ∈ rankedAlphabeticalFilter ["Celbridge".data, "Naas".data] "cel".data true ↔
        x ∈ ["Celbridge".data, "Naas".data] ∧
          (norm "cel".data <+: norm x ∨ norm "cel".data <:+: norm x ∨
            levenshtein ((norm "cel".data).take 32) ((norm x).take 64)
              ≤ fuzzyThreshold (norm "cel".data)))
      ∧ List.Pairwise (fun a b => tier "cel".data a ≤ tier "cel".data b)
          (rankedAlphabeticalFilter ["Celbridge".data, "Naas".data] "cel".data true) :=
  c2_amended_membership_and_order ["Celbridge".data, "Naas".data] "cel".data (by decide)

/-- A stored review still awaiting moderation. -/
def pendingFixture : DBReview :=
  ⟨"r1".data, some "2024-05-01".data, none, "Kildare".data, "Celbridge".data,
    "The Grove".data, some 4, "Nice".data, "Lovely place".data, none,
    "pending".data, none⟩

/-- A stored approved review. -/
def approvedFixture : DBReview :=
  ⟨"r2".data, some "2024-05-02".data, none, "Kildare".data, "Celbridge".data,
    "The Grove".data, some 5, "Great".data, "Would live again".data, none,
    "approved".data, none⟩

/-- C1 counterexample: with a single pending, non-deleted record in storage,
the query-parameter combination `?status=pending` makes `GET /api/reviews`
return that record — one item comes back although nothing in storage is
approved, so the listing is not restricted to approved records. -/
theorem c1_counterexample :
    (handleGet ⟨some "pending".data, none, none, none⟩ [pendingFixture]).length = 1
      ∧ ∀ r ∈ [pendingFixture], r.status ≠ "approved".data := by
  refine ⟨by decide, by decide⟩

/-- C1 (amended): every record returned by `GET /api/reviews` has
`deletedAt = null` and `status` equal to the `status` query parameter, which
defaults to `"approved"` when absent — so only with an explicit `status`
override can non-approved records come back. -/
theorem c1_amended_only_requested_status (q : GetQuery) (store : List DBReview)
    (it : PublicReview) (h : it ∈ handleGet q store) :
    ∃ r ∈ store, r.deleted_at = none ∧ r.status = q.status.getD "approved".data
      ∧ pubReview r = it := by
  unfold handleGet at h
  dsimp only at h
  rw [List.mem_map] at h
  rcases h with ⟨r, hr, rfl⟩
  have hr1 : r ∈ List.insertionSort (fun a b => createdDesc a b = true)
      (store.filter (getRowFilter (q.status.getD "approved".data) (q.county.getD [])
        (q.region.getD []) (q.estate.getD []))) := List.mem_of_mem_take hr
  have hr2 := (List.perm_insertionSort _ _).mem_iff.mp hr1
  rw [List.mem_filter] at hr2
  rcases hr2 with ⟨hmem, hfil⟩
  unfold getRowFilter at hfil
  simp only [Bool.and_eq_true, Bool.or_eq_true, decide_eq_true_eq] at hfil
  exact ⟨r, hmem, hfil.1.1.1.2, hfil.1.1.1.1, rfl⟩

theorem c1_amended_witness :
    ∃ r ∈ [approvedFixture], r.deleted_at = none
      ∧ r.status = (GetQuery.mk none none none none).status.getD "approved".data
      ∧ pubReview r = pubReview approvedFixture :=
  c1_amended_only_requested_status ⟨none, none, none, none⟩ [approvedFixture]
    (pubReview approvedFixture) (by decide)

/-- C3 counterexample: an authorized `delete` on the one stored record
removes it from storage outright (the store becomes empty, no
`deletedAt`-flagged record remains), and a `restore` request is rejected as
a bad payload with no state change — so the delete is not a reversible soft
delete. -/
theorem c3_counterexample :
    (moderationPost true "tok".data ⟨some "Bearer tok".data, none⟩
        ⟨some "r1".data, some "delete".data, none⟩ [pendingFixture]).2 = []
      ∧ moderationPost true "tok".data ⟨some "Bearer tok".data, none⟩
          ⟨some "r1".data, some "restore".data, none⟩ [pendingFixture]
        = (ModResponse.badPayload, [pendingFixture]) := by
  refine ⟨by decide, by decide⟩

/-- C3 (amended): the moderator delete action is a hard delete — with a
valid credential it removes every record bearing the requested id from
storage (statuses of other records untouched) — and there is no restore
action: a `restore` request yields `Bad payload` and leaves the store
unchanged, so a deletion cannot be reversed through this endpoint. -/
theorem c3_amended_hard_delete_no_restore (modToken : Str) (hdrs : ModHeaders)
    (store : List DBReview) (id : Str)
    (htok : extractToken hdrs = some modToken) (hne : modToken ≠ [])
    (hid : id ≠ []) (hnd : (store.map (·.id)).Nodup) :
    moderationPost true modToken hdrs ⟨some id, some "delete".data, none⟩ store
        = (ModResponse.okStatus "deleted".data,
            store.filter (fun r => !(r.id == id)))
      ∧ moderationPost true modToken hdrs ⟨some id, some "restore".data, none⟩ store
        = (ModResponse.badPayload, store) := by
  constructor
  · unfold moderationPost
    rw [if_neg (by simp), htok]
    dsimp only
    rw [if_neg (by simp [hne])]
    rw [if_neg (by simp [hid])]
    rw [if_pos (by rfl)]
    simp only [Option.getD_some]
    rw [eraseFirst_eq_filter id store hnd]
  · unfold moderationPost
    rw [if_neg (by simp), htok]
    dsimp only
    rw [if_neg (by simp [hne])]
    rw [if_pos (by simp)]

theorem c3_amended_witness :
    moderationPost true "tok".data ⟨some "Bearer tok".data, none⟩
        ⟨some "r1".data, some "delete".data, none⟩ [pendingFixture]
        = (ModResponse.okStatus "deleted".data,
            [pendingFixture].filter (fun r => !(r.id == "r1".data)))
      ∧ moderationPost true "tok".data ⟨some "Bearer tok".data, none⟩
          ⟨some "r1".data, some "restore".data, none⟩ [pendingFixture]
        = (ModResponse.badPayload, [pendingFixture]) :=
  c3_amended_hard_delete_no_restore "tok".data ⟨some "Bearer tok".data, none⟩
    [pendingFixture] "r1".data (by decide) (by decide) (by decide) (by decide)

/-- A second pending review, id `a`. -/
def pendingA : DBReview := { pendingFixture with id := "a".data }

/-- A third pending review, id `b`. -/
def pendingB : DBReview := { pendingFixture with id := "b".data }

/-- C4 counterexample: an authorized request carrying the identifier set
`[a, b, c]` (and no single `id`) is rejected wholesale with `Bad payload`:
nothing is transitioned — the existing records `a` and `b` stay pending —
and no per-identifier success/failure report is produced. -/
theorem c4_counterexample :
    moderationPost true "tok".data ⟨some "Bearer tok".data, none⟩
        ⟨none, some "approve".data, some ["a".data, "b".data, "c".data]⟩
        [pendingA, pendingB]
      = (ModResponse.badPayload, [pendingA, pendingB]) := by
  decide

/-- C4 (amended): the moderation endpoint processes a single identifier per
request: a payload carrying only an `ids` set is rejected with `Bad payload`
and transitions nothing, and a single-id action on a nonexistent identifier
still answers with a plain ok status while changing nothing — the response
never reports per-identifier failures. -/
theorem c4_amended_single_id_only (modToken : Str) (hdrs : ModHeaders)
    (htok : extractToken hdrs = some modToken) (hne : modToken ≠ []) :
    (∀ (ids : List Str) (action : Str) (store : List DBReview),
        moderationPost true modToken hdrs ⟨none, some action, some ids⟩ store
          = (ModResponse.badPayload, store))
      ∧ (∀ (id : Str) (store : List DBReview), id ≠ [] →
          (∀ r ∈ store, r.id ≠ id) →
          moderationPost true modToken hdrs ⟨some id, some "approve".data, none⟩ store
            = (ModResponse.okStatus "approved".data, store)) := by
  constructor
  · intro ids action store
    unfold moderationPost
    rw [if_neg (by simp), htok]
    dsimp only
    rw [if_neg (by simp [hne])]
    rw [if_pos (by simp)]
  · intro id store hid hmem
    unfold moderationPost
    rw [if_neg (by simp), htok]
    dsimp only
    rw [if_neg (by simp [hne])]
    rw [if_neg (by simp [hid])]
    rw [if_neg (by decide)]
    rw [if_pos (by rfl)]
    rw [updateFirst_of_not_mem _ _ store (fun r hr => by simp [hmem r hr])]

theorem c4_amended_witness :
    moderationPost true "tok".data ⟨some "Bearer tok".data, none⟩
        ⟨none, some "approve".data, some ["a".data, "b".data, "c".data]⟩
        [pendingA, pendingB]
      = (ModResponse.badPayload, [pendingA, pendingB]) :=
  (c4_amended_single_id_only "tok".data ⟨some "Bearer tok".data, none⟩
    (by decide) (by decide)).1 ["a".data, "b".data, "c".data] "approve".data
    [pendingA, pendingB]

theorem mem_ite_singleton {c : Prop} [Decidable c] {m x : Str} :
    (x ∈ if c then [m] else []) ↔ (c ∧ x = m) := by
  split_ifs with h <;> simp [h]

/-- The rational 7/2 = 3.5, built as an explicit fraction. -/
def ratHalf : Rat := ⟨7, 2, by norm_num, by norm_num⟩

/-- A submission whose rating is the non-integer 7/2, all other fields
valid. -/
def rawHalf : RawPayload :=
  ⟨some "Kildare".data, some "Celbridge".data, none, some ratHalf,
    some "Nice".data, some "Lovely".data, none, none⟩

/-- C5 counterexample: the payload with `rating = 3.5` — not an integer in
[1,5] — passes validation and is accepted: the handler answers ok and stores
the record with `status = "pending"` and the fractional rating intact, where
the claim requires an `InvalidPayload` rejection. -/
theorem c5_counterexample :
    (handlePost true true rawHalf "1.2.3.4".data 0 "id9".data [] []).1
        = respOkCreated "id9".data
      ∧ (handlePost true true rawHalf "1.2.3.4".data 0 "id9".data [] []).2.1
        = [insertReview "id9".data (normalizePayload rawHalf)]
      ∧ (insertReview "id9".data (normalizePayload rawHalf)).status = "pending".data
      ∧ (insertReview "id9".data (normalizePayload rawHalf)).rating = some ratHalf
      ∧ ratHalf.den ≠ 1 := by
  refine ⟨by decide, by decide, by decide, by decide, by decide⟩

/-- C5 (amended): validation precedes every side effect and reports every
failing field: each error message appears exactly when its field check fails
(rating is rejected only when NaN, below 1 or above 5 — integrality is not
checked); when any check fails the handler returns the full error list and
neither the store nor the rate-limit map changes; when all checks pass (and
the honeypot is empty and the rate limit not hit) the record is stored with
status pending. -/
theorem c5_amended_validation :
    (∀ p : Payload,
        ("county is required".data ∈ validationErrors p ↔ p.county = [])
        ∧ ("region is required".data ∈ validationErrors p ↔ p.region = [])
        ∧ ("rating must be 1..5".data ∈ validationErrors p ↔ ratingInvalid p.rating)
        ∧ ("title is required".data ∈ validationErrors p ↔ p.title = [])
        ∧ ("body is required".data ∈ validationErrors p ↔ p.body = [])
        ∧ ("title too long".data ∈ validationErrors p ↔ 120 < p.title.length)
        ∧ ("body too long".data ∈ validationErrors p ↔ 5000 < p.body.length))
      ∧ (∀ (raw : RawPayload) (ip : Str) (now : Int) (newId : Str)
            (store : List DBReview) (hits : List (Str × RateSlot)),
          (normalizePayload raw).website = [] →
          validationErrors (normalizePayload raw) ≠ [] →
          handlePost true true raw ip now newId store hits
            = (respInvalid (validationErrors (normalizePayload raw)), store, hits))
      ∧ (∀ (raw : RawPayload) (ip : Str) (now : Int) (newId : Str)
            (store : List DBReview) (hits : List (Str × RateSlot)),
          (normalizePayload raw).website = [] →
          validationErrors (normalizePayload raw) = [] →
          (hit now ip hits).1 = false →
          handlePost true true raw ip now newId store hits
            = (respOkCreated newId,
                store ++ [insertReview newId (normalizePayload raw)],
                (hit now ip hits).2)
            ∧ (insertReview newId (normalizePayload raw)).status = "pending".data) := by
  refine ⟨?_, ?_, ?_⟩
  · intro p
    refine ⟨?_, ?_, ?_, ?_, ?_, ?_, ?_⟩ <;>
      (unfold validationErrors
       simp only [List.mem_append, mem_ite_singleton, or_assoc]
       constructor)
    · rintro (h | h | h | h | h | h | h)
      · exact h.1
      all_goals exact absurd h.2 (by decide)
    · intro h
      exact Or.inl ⟨h, trivial⟩
    · rintro (h | h | h | h | h | h | h)
      · exact absurd h.2 (by decide)
      · exact h.1
      all_goals exact absurd h.2 (by decide)
    · intro h
      exact Or.inr (Or.inl ⟨h, trivial⟩)
    · rintro (h | h | h | h | h | h | h)
      · exact absurd h.2 (by decide)
      · exact absurd h.2 (by decide)
      · exact h.1
      all_goals exact absurd h.2 (by decide)
    · intro h
      exact Or.inr (Or.inr (Or.inl ⟨h, trivial⟩))
    · rintro (h | h | h | h | h | h | h)
      · exact absurd h.2 (by decide)
      · exact absurd h.2 (by decide)
      · exact absurd h.2 (by decide)
      · exact h.1
      all_goals exact absurd h.2 (by decide)
    · intro h
      exact Or.inr (Or.inr (Or.inr (Or.inl ⟨h, trivial⟩)))
    · rintro (h | h | h | h | h | h | h)
      · exact absurd h.2 (by decide)
      · exact absurd h.2 (by decide)
      · exact absurd h.2 (by decide)
      · exact absurd h.2 (by decide)
      · exact h.1
      all_goals exact absurd h.2 (by decide)
    · intro h
      exact Or.inr (Or.inr (Or.inr (Or.inr (Or.inl ⟨h, trivial⟩))))
    · rintro (h | h | h | h | h | h | h)
      · exact absurd h.2 (by decide)
      · exact absurd h.2 (by decide)
      · exact absurd h.2 (by decide)
      · exact absurd h.2 (by decide)
      · exact absurd h.2 (by decide)
      · exact h.1
      · exact absurd h.2 (by decide)
    · intro h
      exact Or.inr (Or.inr (Or.inr (Or.inr (Or.inr (Or.inl ⟨h, trivial⟩)))))
    · rintro (h | h | h | h | h | h | h)
      · exact absurd h.2 (by decide)
      · exact absurd h.2 (by decide)
      · exact absurd h.2 (by decide)
      · exact absurd h.2 (by decide)
      · exact absurd h.2 (by decide)
      · exact absurd h.2 (by decide)
      · exact h.1
    · intro h
      exact Or.inr (Or.inr (Or.inr (Or.inr (Or.inr (Or.inr ⟨h, trivial⟩)))))
  · intro raw ip now newId store hits hw herr
    unfold handlePost
    rw [if_neg (by simp), if_neg (by simp)]
    dsimp only
    rw [if_neg (by simp [hw])]
    rw [if_pos herr]
  · intro raw ip now newId store hits hw herr hhit
    refine ⟨?_, rfl⟩
    unfold handlePost
    rw [if_neg (by simp), if_neg (by simp)]
    dsimp only
    rw [if_neg (by simp [hw])]
    rw [if_neg (by simp [herr])]
    rw [if_neg (by simp [hhit])]

/-- A submission with `rating = 0` and every other field valid. -/
def rawZero : RawPayload :=
  ⟨some "Kildare".data, some "Celbridge".data, none, some 0,
    some "Nice".data, some "Lovely".data, none, none⟩

theorem c5_amended_witness :
    ("rating must be 1..5".data ∈ validationErrors (normalizePayload rawZero)
        ↔ ratingInvalid (normalizePayload rawZero).rating)
      ∧ handlePost true true rawZero "1.2.3.4".data 0 "id9".data [] []
        = (respInvalid (validationErrors (normalizePayload rawZero)), [], []) :=
  ⟨(c5_amended_validation.1 (normalizePayload rawZero)).2.2.1,
    c5_amended_validation.2.1 rawZero "1.2.3.4".data 0 "id9".data [] []
      (by decide) (by decide)⟩

/-- A valid named-variant submission payload. -/
def npFixture : NamedPayload :=
  ⟨"Kildare".data, "Celbridge".data, "The Grove".data, some 5,
    "Great estate".data, "Lovely place to live".data, "Sam".data, none⟩

/-- C6: with the rate-limit secret configured, a POST is rejected with 429 /
TooManyRequests exactly when the count of `submission_log` rows for this
submitter's hashed IP within the trailing 60 minutes has reached the
configured hourly ceiling; in particular the sixth submission within one
hour from one IP, under a ceiling of 5 per hour, gets TooManyRequests while
the first five succeed. -/
theorem c6_rate_limit :
    (∀ (hmac : Str → Str → Str) (cfg : RLConfig) (captchaOk : Bool) (ip : Str)
        (payload : NamedPayload) (token : Option Str) (now : Int)
        (st : ReviewsState),
        cfg.secret ≠ [] →
        ((reviewsHandler hmac cfg captchaOk "POST".data ip payload token now st).1
            = ReviewsResp.tooMany ↔
          cfg.perHour ≤ st.log.countP (fun e =>
            e.ip_hash == hashIp hmac cfg.secret ip
              && decide (now - 3600000 ≤ e.inserted_at))))
      ∧ (runSubmissions (fun s i => s ++ ':' :: i) ⟨"s".data, 5, false⟩ true
            "1.2.3.4".data npFixture none
            [0, 600000, 1200000, 1800000, 2400000, 3000000] ⟨[], []⟩).1
          = [ReviewsResp.okPending, ReviewsResp.okPending, ReviewsResp.okPending,
             ReviewsResp.okPending, ReviewsResp.okPending, ReviewsResp.tooMany] := by
  constructor
  · intro hmac cfg captchaOk ip payload token now st hsec
    unfold reviewsHandler
    rw [if_neg (by simp)]
    dsimp only
    by_cases hcond : cfg.perHour ≤ st.log.countP (fun e =>
        e.ip_hash == hashIp hmac cfg.secret ip
          && decide (now - 3600000 ≤ e.inserted_at))
    · rw [if_pos ⟨hsec, hcond⟩]
      exact ⟨fun _ => hcond, fun _ => rfl⟩
    · rw [if_neg (fun hc => hcond hc.2)]
      constructor
      · intro h
        split_ifs at h <;> simp at h
      · intro h
        exact absurd h hcond
  · decide

theorem c6_rate_limit_witness :
    (reviewsHandler (fun s i => s ++ ':' :: i) ⟨"s".data, 5, false⟩ true
        "POST".data "1.2.3.4".data npFixture none 3000000
        ⟨[⟨"s:1.2.3.4".data, 0⟩, ⟨"s:1.2.3.4".data, 600000⟩,
          ⟨"s:1.2.3.4".data, 1200000⟩, ⟨"s:1.2.3.4".data, 1800000⟩,
          ⟨"s:1.2.3.4".data, 2400000⟩], []⟩).1 = ReviewsResp.tooMany :=
  (c6_rate_limit.1 (fun s i => s ++ ':' :: i) ⟨"s".data, 5, false⟩ true
    "1.2.3.4".data npFixture none 3000000 _ (by decide)).mpr (by decide)

/-- A submission with a non-empty honeypot field. -/
def rawBot : RawPayload :=
  ⟨some "Kildare".data, some "Celbridge".data, none, some 5,
    some "Nice".data, some "Lovely".data, none, some "http://spam".data⟩

/-- C7: a submission whose honeypot field is non-empty reports success (HTTP
200, `ok: true`) and creates no record — but the response body carries
`skipped: true`, which no genuine success response carries, so the response
does reveal that the submission was detected and dropped (the code's own
comment says the accept should be silent to avoid tipping off bots). -/
theorem c7_honeypot_response_reveals (raw : RawPayload) (ip : Str) (now : Int)
    (newId : Str) (store : List DBReview) (hits : List (Str × RateSlot))
    (hw : (normalizePayload raw).website ≠ []) :
    handlePost true true raw ip now newId store hits = (respOkSkipped, store, hits)
      ∧ respOkSkipped.status = 200 ∧ respOkSkipped.ok = true
      ∧ respOkSkipped.skipped = true
      ∧ ∀ id, (respOkCreated id).skipped = false := by
  refine ⟨?_, rfl, rfl, rfl, fun id => rfl⟩
  unfold handlePost
  rw [if_neg (by simp), if_neg (by simp)]
  dsimp only
  rw [if_pos hw]

theorem c7_honeypot_witness :
    handlePost true true rawBot "1.2.3.4".data 0 "id9".data [] []
        = (respOkSkipped, [], [])
      ∧ respOkSkipped.status = 200 ∧ respOkSkipped.ok = true
      ∧ respOkSkipped.skipped = true
      ∧ ∀ id, (respOkCreated id).skipped = false :=
  c7_honeypot_response_reveals rawBot "1.2.3.4".data 0 "id9".data [] [] (by decide)

end StreetSage
